import Mathlib

/-!
Verification development for the CSP engine of this repository.

The engine under study consists of:
* `backtracking` / `backtracking_helper` / `ac3` / `revise` and the default
  ordering functions, from `HW2/Code/backtracking.py`;
* the `mrv` and `lcv` heuristics from `HW2/Code/p2_csp_tests/backtracking.py`
  and the `select_unassigned_variable` / `order_domain_values` heuristics from
  `Homework 2/p2_csp_tests/backtracking.py`;
* the second `ac3` / `revise` variant defined inside
  `Homework 2/p2_csp_tests/csp_scheduler.py` (a FIFO worklist without an
  assignment parameter).

Conventions of the embedding:
* A CSP problem is a structure holding the fields the Python code reads from
  the `csp` object: `variables`, `domains`, `adjacency`,
  `constraint_consistent`, `check_partial_assignment`, `is_goal`.
* Domains are total functions `V → List A` (Python dicts keyed by the
  variables); assignments are `V → Option A` (partial dicts).
* `HW2/Code/backtracking.py` keeps its arc worklist as a Python `set` and
  calls `.pop()`, which removes a hash-ordered, unspecified element.  The
  embedding keeps the worklist as a duplicate-free list and takes the popped
  position from a strategy `σ : Nat → Nat` (the index `σ t % queue.length` at
  step `t`); every behaviour of the hash-ordered set corresponds to some `σ`.
* The FIFO `ac3` of `Homework 2/p2_csp_tests/csp_scheduler.py` needs no
  strategy: it pops index 0 and appends, duplicates included.
-/

section Engine

variable {V A : Type} [DecidableEq V] [DecidableEq A]

/-- The capability set the engine reads from the Python `csp` object
(`SchedulerCSP` in both `csp_scheduler.py` variants). -/
structure CSP (V A : Type) where
  «variables» : List V
  domains : V → List A
  adjacency : V → List V
  constraint_consistent : V → A → V → A → Bool
  check_partial_assignment : (V → Option A) → Bool
  is_goal : (V → Option A) → Bool

/-- The loop body of `revise` (`HW2/Code/backtracking.py` lines 101-113):
iterate over a copy (`pending`) of `current_domains[xi]`; a value with no
supporting value in `current_domains[xj]` is removed (`list.remove`, i.e.
first occurrence) from the live `current_domains[xi]`, and the `revised`
flag is set. -/
def reviseGo (c : V → A → V → A → Bool) (xi xj : V) :
    List A → (V → List A) → Bool → (V → List A) × Bool
  | [], doms, revised => (doms, revised)
  | v :: rest, doms, revised =>
      if (doms xj).any (fun w => c xi v xj w) then
        reviseGo c xi xj rest doms revised
      else
        reviseGo c xi xj rest (Function.update doms xi ((doms xi).erase v)) true

/-- `revise(csp, xi, xj, current_domains)`: the pending list is the deepcopy
of `current_domains[xi]` taken at entry. -/
def revise (c : V → A → V → A → Bool) (xi xj : V) (doms : V → List A) :
    (V → List A) × Bool :=
  reviseGo c xi xj (doms xi) doms false

/-- Total number of candidate values over all domains; the termination
measure of `ac3` (spec section 4.1: "total value count across all domains is
finite and monotonically non-increasing"). -/
def totalSize [Fintype V] (doms : V → List A) : Nat := ∑ v : V, (doms v).length

theorem reviseGo_apply_ne (c : V → A → V → A → Bool) (xi xj : V)
    (pending : List A) (doms : V → List A) (r : Bool) (v : V) (hv : v ≠ xi) :
    (reviseGo c xi xj pending doms r).1 v = doms v := by
  induction pending generalizing doms r with
  | nil => rfl
  | cons a rest ih =>
      rw [reviseGo]
      split
      · exact ih doms r
      · rw [ih]
        exact Function.update_noteq hv _ _

theorem reviseGo_sublist (c : V → A → V → A → Bool) (xi xj : V)
    (pending : List A) (doms : V → List A) (r : Bool) (v : V) :
    List.Sublist ((reviseGo c xi xj pending doms r).1 v) (doms v) := by
  induction pending generalizing doms r with
  | nil => exact List.Sublist.refl _
  | cons a rest ih =>
      rw [reviseGo]
      split
      · exact ih doms r
      · refine (ih _ _).trans ?_
        by_cases hv : v = xi
        · subst hv
          simp only [Function.update_same]
          exact List.erase_sublist _ _
        · rw [Function.update_noteq hv]

theorem reviseGo_flag_mono (c : V → A → V → A → Bool) (xi xj : V)
    (pending : List A) (doms : V → List A) :
    (reviseGo c xi xj pending doms true).2 = true := by
  induction pending generalizing doms with
  | nil => rfl
  | cons a rest ih =>
      rw [reviseGo]
      split
      · exact ih doms
      · exact ih _

theorem reviseGo_false (c : V → A → V → A → Bool) (xi xj : V)
    (pending : List A) (doms : V → List A)
    (h : (reviseGo c xi xj pending doms false).2 = false) :
    (reviseGo c xi xj pending doms false).1 = doms := by
  induction pending generalizing doms with
  | nil => rfl
  | cons a rest ih =>
      rw [reviseGo] at h ⊢
      split at h
      · next hs => rw [if_pos hs]; exact ih doms h
      · next hs =>
          rw [reviseGo_flag_mono] at h
          exact absurd h (by simp)

theorem reviseGo_flag_lt (c : V → A → V → A → Bool) (xi xj : V)
    (pending : List A) (doms : V → List A)
    (hcnt : ∀ u, pending.count u ≤ ((doms xi).count u))
    (hflag : (reviseGo c xi xj pending doms false).2 = true) :
    ((reviseGo c xi xj pending doms false).1 xi).length < (doms xi).length := by
  induction pending generalizing doms with
  | nil => simp [reviseGo] at hflag
  | cons a rest ih =>
      rw [reviseGo] at hflag ⊢
      split at hflag
      · next hs =>
          rw [if_pos hs]
          refine ih doms (fun u => ?_) hflag
          refine le_trans ?_ (hcnt u)
          simp [List.count_cons]
      · next hs =>
          rw [if_neg hs]
          have hmem : a ∈ doms xi := by
            have h1 : 1 ≤ (a :: rest).count a := by simp [List.count_cons]
            exact List.count_pos_iff.mp (lt_of_lt_of_le h1 (hcnt a))
          have hlt : ((doms xi).erase a).length < (doms xi).length := by
            rw [List.length_erase_of_mem hmem]
            exact Nat.sub_lt (List.length_pos_of_mem hmem) (by omega)
          have hle :=
            (reviseGo_sublist c xi xj rest
              (Function.update doms xi ((doms xi).erase a)) true xi).length_le
          rw [Function.update_same] at hle
          exact lt_of_le_of_lt hle hlt

theorem revise_apply_ne (c : V → A → V → A → Bool) (xi xj : V)
    (doms : V → List A) (v : V) (hv : v ≠ xi) :
    (revise c xi xj doms).1 v = doms v :=
  reviseGo_apply_ne c xi xj _ doms false v hv

theorem revise_sublist (c : V → A → V → A → Bool) (xi xj : V)
    (doms : V → List A) (v : V) :
    List.Sublist ((revise c xi xj doms).1 v) (doms v) :=
  reviseGo_sublist c xi xj _ doms false v

theorem revise_false (c : V → A → V → A → Bool) (xi xj : V)
    (doms : V → List A) (h : (revise c xi xj doms).2 = false) :
    (revise c xi xj doms).1 = doms :=
  reviseGo_false c xi xj _ doms h

theorem revise_flag_lt (c : V → A → V → A → Bool) (xi xj : V)
    (doms : V → List A) (h : (revise c xi xj doms).2 = true) :
    ((revise c xi xj doms).1 xi).length < (doms xi).length :=
  reviseGo_flag_lt c xi xj _ doms (fun _ => le_refl _) h

theorem revise_totalSize_lt [Fintype V] (c : V → A → V → A → Bool) (xi xj : V)
    (doms : V → List A) (h : (revise c xi xj doms).2 = true) :
    totalSize (revise c xi xj doms).1 < totalSize doms := by
  unfold totalSize
  refine Finset.sum_lt_sum (fun v _ => (revise_sublist c xi xj doms v).length_le)
    ⟨xi, Finset.mem_univ xi, revise_flag_lt c xi xj doms h⟩

/-- Insertion into the arc worklist with Python-`set` semantics: adding an
element already present changes nothing (`arcs_queue.add`). -/
def addArc (q : List (V × V)) (p : V × V) : List (V × V) :=
  if p ∈ q then q else q ++ [p]

/-- `set(arcs_queue)`: collapse a list to its duplicate-free support.  The
retained order is bookkeeping only; the popping strategy `σ` ranges over all
positions, covering every hash order of the Python set. -/
def dedupArcs (q : List (V × V)) : List (V × V) :=
  q.foldl addArc []

/-- The default full worklist of `ac3` (`HW2/Code/backtracking.py` lines
71-76): for every variable and every neighbor `n`, extend with
`[(var, n), (n, var)]`. -/
def fullSeed (csp : CSP V A) : List (V × V) :=
  csp.variables.foldl
    (fun acc var =>
      (csp.adjacency var).foldl (fun acc2 n => acc2 ++ [(var, n), (n, var)]) acc)
    []

/-- The `while len(arcs_queue) > 0` loop of `ac3`
(`HW2/Code/backtracking.py` lines 89-99).  `arcs_queue.pop()` removes a
hash-ordered element of the set: the embedding pops position `σ t % length`
at step `t` and threads the step counter `t` so that successive `ac3` calls
draw from one strategy.  On a successful revision with a non-empty domain,
exactly the arcs `(xk, xi)` for neighbors `xk ≠ xj` of `xi` with `xk` not in
the assignment are added back. -/
def ac3Loop [Fintype V] (csp : CSP V A) (σ : Nat → Nat) (asg : V → Option A) :
    Nat → List (V × V) → (V → List A) → Bool × ((V → List A) × Nat)
  | t, [], doms => (true, doms, t)
  | t, p :: rest, doms =>
      let q := p :: rest
      let i := σ t % q.length
      let arc := q.getD i p
      let q' := q.eraseIdx i
      let r := revise csp.constraint_consistent arc.1 arc.2 doms
      if hrev : r.2 = true then
        if r.1 arc.1 = [] then (false, r.1, t)
        else
          ac3Loop csp σ asg (t + 1)
            (((csp.adjacency arc.1).filter fun n =>
                n ≠ arc.2 && (asg n).isNone).foldl
              (fun acc xk => addArc acc (xk, arc.1)) q') r.1
      else
        -- `revised = False` means no removal happened, so the live
        -- `current_domains` are still `doms` (`revise_false`).
        ac3Loop csp σ asg (t + 1) q' doms
  termination_by t q doms => (totalSize doms, q.length)
  decreasing_by
  · exact Prod.Lex.left _ _ (revise_totalSize_lt _ _ _ _ hrev)
  · exact Prod.Lex.right _ (by simp [List.length_eraseIdx, Nat.mod_lt])

/-- `ac3(csp, arcs_queue, assignment, current_domains)`
(`HW2/Code/backtracking.py` lines 68-99).  A missing worklist is replaced by
the full seed, a missing assignment by the empty one, and missing domains by
a deep copy of `csp.domains`; the worklist is then deduplicated
(`arcs_queue = set(arcs_queue)`). -/
def ac3 [Fintype V] (csp : CSP V A) (σ : Nat → Nat) (t : Nat)
    (arcsQueue : Option (List (V × V))) (assignment : Option (V → Option A))
    (currentDomains : Option (V → List A)) : Bool × ((V → List A) × Nat) :=
  ac3Loop csp σ (assignment.getD (fun _ => none)) t
    (dedupArcs (arcsQueue.getD (fullSeed csp)))
    (currentDomains.getD csp.domains)

/-- Python `min(xs, key=k)` for a `Nat` key: the first element attaining the
minimal key (later elements replace the current best only on a strictly
smaller key); `none` on the empty list, where Python raises `ValueError`. -/
def pythonMinNat (key : α → Nat) : List α → Option α
  | [] => none
  | x :: xs => some (xs.foldl (fun best y => if key y < key best then y else best) x)

/-- Truth of `(s1, d1) < (s2, d2)` on Python tuples `(int, int)`:
lexicographic comparison. -/
def tupleLt (p q : Nat × Int) : Bool :=
  p.1 < q.1 || (p.1 = q.1 && p.2 < q.2)

/-- Python `min(xs, key=k)` for a key producing a pair compared
lexicographically, as in `min(unassigned, key=lambda var: (..., -...))`. -/
def pythonMinTuple (key : α → Nat × Int) : List α → Option α
  | [] => none
  | x :: xs => some (xs.foldl (fun best y => if tupleLt (key y) (key best) then y else best) x)

/-- Default `var_selection_function` (`HW2/Code/backtracking.py` lines 61-62):
`[var for var in csp.variables if var not in assignment][0]`.  Indexing an
empty list raises in Python; the embedding returns `none` there (the engine
never reaches that state). -/
def var_selection_function (csp : CSP V A) (assignment : V → Option A)
    (currentDomains : V → List A) : Option V :=
  (csp.variables.filter fun v => (assignment v).isNone).head?

/-- Default `val_order_function` (`HW2/Code/backtracking.py` lines 65-66):
the values of the current domain in unchanged order. -/
def val_order_function (csp : CSP V A) (var : V) (assignment : V → Option A)
    (currentDomains : V → List A) : List A :=
  (currentDomains var).map id

/-- `mrv` (`HW2/Code/p2_csp_tests/backtracking.py` lines 116-132):
`min(unassigned_vars, key=lambda var: len(current_domains[var]))` — minimum
remaining values with no degree tie-break. -/
def mrv (csp : CSP V A) (assignment : V → Option A)
    (currentDomains : V → List A) : Option V :=
  pythonMinNat (fun var => (currentDomains var).length)
    (csp.variables.filter fun v => (assignment v).isNone)

/-- Number of unassigned neighbors of `var`:
`sum(1 for n in csp.adjacency[var] if n not in assignment)`. -/
def unassignedDegree (csp : CSP V A) (assignment : V → Option A) (var : V) : Nat :=
  ((csp.adjacency var).filter fun n => (assignment n).isNone).length

/-- `select_unassigned_variable` (`Homework 2/p2_csp_tests/backtracking.py`
lines 88-111): `None` when everything is assigned, otherwise
`min(unassigned, key=lambda var: (len(current_domains[var]), -degree))`. -/
def select_unassigned_variable (csp : CSP V A) (assignment : V → Option A)
    (currentDomains : V → List A) : Option V :=
  pythonMinTuple
    (fun var => ((currentDomains var).length, -(unassignedDegree csp assignment var : Int)))
    (csp.variables.filter fun v => (assignment v).isNone)

/-- `count_conflicts(val)` inside `lcv`
(`HW2/Code/p2_csp_tests/backtracking.py` lines 155-161): over every
unassigned neighbor and every value of its current domain, count the pairs
failing `constraint_consistent`. -/
def countConflicts (csp : CSP V A) (var : V) (assignment : V → Option A)
    (currentDomains : V → List A) (val : A) : Nat :=
  (((csp.adjacency var).filter fun n => (assignment n).isNone).map fun neighbor =>
    (currentDomains neighbor).countP fun nval =>
      !csp.constraint_consistent var val neighbor nval).sum

/-- `lcv` (`HW2/Code/p2_csp_tests/backtracking.py` lines 135-164; the same
logic is `order_domain_values` in `Homework 2/p2_csp_tests/backtracking.py`
lines 113-143): `sorted(current_domains[var], key=count_conflicts)`.  Python
`sorted` is the stable sort by the key, i.e. insertion sort with the
non-strict key comparison. -/
def lcv (csp : CSP V A) (var : V) (assignment : V → Option A)
    (currentDomains : V → List A) : List A :=
  (currentDomains var).insertionSort fun a b =>
    countConflicts csp var assignment currentDomains a ≤
      countConflicts csp var assignment currentDomains b

/-- `revise` of `Homework 2/p2_csp_tests/csp_scheduler.py` (lines 288-318):
collect `to_remove` by scanning `current_domains[xi]` against
`current_domains[xj]`, then `remove` each collected value. -/
def reviseSched (c : V → A → V → A → Bool) (xi xj : V) (doms : V → List A) :
    (V → List A) × Bool :=
  let xiDomain := doms xi
  let xjDomain := doms xj
  let toRemove := xiDomain.filter fun v => !(xjDomain.any fun w => c xi v xj w)
  (Function.update doms xi (toRemove.foldl List.erase xiDomain), !toRemove.isEmpty)

theorem reviseSched_apply_ne (c : V → A → V → A → Bool) (xi xj : V)
    (doms : V → List A) (v : V) (hv : v ≠ xi) :
    (reviseSched c xi xj doms).1 v = doms v :=
  Function.update_noteq hv _ _

theorem eraseFold_sublist (rm : List A) (l : List A) :
    List.Sublist (rm.foldl List.erase l) l := by
  induction rm generalizing l with
  | nil => exact List.Sublist.refl _
  | cons a rest ih => exact (ih (l.erase a)).trans (List.erase_sublist a l)

theorem reviseSched_sublist (c : V → A → V → A → Bool) (xi xj : V)
    (doms : V → List A) (v : V) :
    List.Sublist ((reviseSched c xi xj doms).1 v) (doms v) := by
  by_cases hv : v = xi
  · subst hv
    simp only [reviseSched, Function.update_same]
    exact eraseFold_sublist _ _
  · rw [reviseSched_apply_ne c xi xj doms v hv]

theorem reviseSched_flag_lt (c : V → A → V → A → Bool) (xi xj : V)
    (doms : V → List A) (h : (reviseSched c xi xj doms).2 = true) :
    ((reviseSched c xi xj doms).1 xi).length < (doms xi).length := by
  simp only [reviseSched, Function.update_same]
  simp only [reviseSched, Bool.not_eq_true', List.isEmpty_eq_false_iff_exists_mem] at h
  obtain ⟨a, ha⟩ := h
  match hrm : (doms xi).filter fun v => !((doms xj).any fun w => c xi v xj w) with
  | [] => rw [hrm] at ha; exact absurd ha (List.not_mem_nil a)
  | b :: rm =>
      have hbmem : b ∈ doms xi := List.mem_of_mem_filter (hrm ▸ List.mem_cons_self b rm)
      have hlt : ((doms xi).erase b).length < (doms xi).length := by
        rw [List.length_erase_of_mem hbmem]
        exact Nat.sub_lt (List.length_pos_of_mem hbmem) (by omega)
      rw [List.foldl_cons]
      exact lt_of_le_of_lt (eraseFold_sublist rm _).length_le hlt

theorem reviseSched_totalSize_lt [Fintype V] (c : V → A → V → A → Bool)
    (xi xj : V) (doms : V → List A) (h : (reviseSched c xi xj doms).2 = true) :
    totalSize (reviseSched c xi xj doms).1 < totalSize doms := by
  unfold totalSize
  refine Finset.sum_lt_sum (fun v _ => (reviseSched_sublist c xi xj doms v).length_le)
    ⟨xi, Finset.mem_univ xi, reviseSched_flag_lt c xi xj doms h⟩

theorem reviseSched_false (c : V → A → V → A → Bool) (xi xj : V)
    (doms : V → List A) (h : (reviseSched c xi xj doms).2 = false) :
    (reviseSched c xi xj doms).1 = doms := by
  simp only [reviseSched, Bool.not_eq_false', List.isEmpty_iff] at h ⊢
  rw [h]
  simp [Function.update_eq_self_iff]

/-- The `while arcs_queue:` loop of the `ac3` in
`Homework 2/p2_csp_tests/csp_scheduler.py` (lines 273-284): a plain list
used as a FIFO queue (`pop(0)`, `append`, duplicates possible), no
assignment parameter — the re-enqueued arcs are every `(xk, xi)` with
`xk ≠ xj`, whether or not `xk` is assigned in the ambient search. -/
def ac3SchedLoop [Fintype V] (csp : CSP V A) :
    List (V × V) → (V → List A) → Bool × (V → List A)
  | [], doms => (true, doms)
  | (xi, xj) :: rest, doms =>
      let r := reviseSched csp.constraint_consistent xi xj doms
      if hrev : r.2 = true then
        if r.1 xi = [] then (false, r.1)
        else
          ac3SchedLoop csp
            (rest ++ ((csp.adjacency xi).filter fun xk => xk ≠ xj).map
              fun xk => (xk, xi)) r.1
      else ac3SchedLoop csp rest doms
  termination_by q doms => (totalSize doms, q.length)
  decreasing_by
  · exact Prod.Lex.left _ _ (reviseSched_totalSize_lt _ _ _ _ hrev)
  · exact Prod.Lex.right _ (by simp)

/-- `ac3(csp, arcs_queue, current_domains)` of
`Homework 2/p2_csp_tests/csp_scheduler.py` (lines 249-284): default domains
are a deep copy of `csp.domains`, a missing queue is seeded with every
`(var, neighbor)` pair (one direction only), a given queue is used as a
list. -/
def ac3Sched [Fintype V] (csp : CSP V A) (arcsQueue : Option (List (V × V)))
    (currentDomains : Option (V → List A)) : Bool × (V → List A) :=
  let doms := currentDomains.getD csp.domains
  let q := arcsQueue.getD
    (csp.variables.flatMap fun var => (csp.adjacency var).map fun n => (var, n))
  ac3SchedLoop csp q doms

/-- Selection-function and value-ordering signatures, as the engine is used
with the defaults of `HW2/Code/backtracking.py` or the overriding heuristics
of the `p2_csp_tests` variants. -/
def VarSelection (V A : Type) := CSP V A → (V → Option A) → (V → List A) → Option V

def ValOrdering (V A : Type) := CSP V A → V → (V → Option A) → (V → List A) → List A

mutual
/-- `backtracking_helper(csp, assignment, current_domains)`
(`HW2/Code/backtracking.py` lines 20-58).  `fuel` bounds the recursion
depth; per spec section 5 the maximum depth equals the number of variables,
and `backtracking` supplies `csp.variables.length + 1`, so with a selection
function that returns unassigned variables the bound is never hit.  The
result also carries the strategy step counter `t` for the embedded set
pops. -/
def backtracking_helper [Fintype V] (csp : CSP V A) (sel : VarSelection V A)
    (ord : ValOrdering V A) (σ : Nat → Nat) :
    Nat → (V → Option A) → (V → List A) → Nat → Option (V → Option A) × Nat
  | 0, _, _, t => (none, t)
  | fuel + 1, assignment, currentDomains, t =>
      if csp.is_goal assignment then (some assignment, t)
      else
        match sel csp assignment currentDomains with
        | none => (none, t)
        | some var =>
            helperTry csp sel ord σ fuel var assignment currentDomains
              (ord csp var assignment currentDomains) t
  termination_by fuel _ _ _ => (fuel, 0)

/-- The `for val in val_order:` loop of `backtracking_helper` (lines 29-54):
try `assignment[var] = val`, restrict `current_domains[var]` to `[val]`,
check the partial assignment, deep-copy the domains, run `ac3` on the arcs
from the unassigned neighbors of `var`, recurse on success, and fall through
to the next value otherwise (`assignment.pop(var, None)` restores the
assignment). -/
def helperTry [Fintype V] (csp : CSP V A) (sel : VarSelection V A)
    (ord : ValOrdering V A) (σ : Nat → Nat) (fuel : Nat) (var : V)
    (assignment : V → Option A) (currentDomains : V → List A) :
    List A → Nat → Option (V → Option A) × Nat
  | [], t => (none, t)
  | val :: rest, t =>
      let asg' := Function.update assignment var (some val)
      let doms' := Function.update currentDomains var [val]
      if csp.check_partial_assignment asg' then
        let arcs := ((csp.adjacency var).filter fun n => (asg' n).isNone).map
          fun n => (n, var)
        let r := ac3Loop csp σ asg' t (dedupArcs arcs) doms'
        if r.1 then
          match backtracking_helper csp sel ord σ fuel asg' r.2.1 r.2.2 with
          | (some result, t') => (some result, t')
          | (none, t') =>
              helperTry csp sel ord σ fuel var assignment currentDomains rest t'
        else helperTry csp sel ord σ fuel var assignment currentDomains rest r.2.2
      else helperTry csp sel ord σ fuel var assignment currentDomains rest t
  termination_by vals _ => (fuel, vals.length + 1)
end

/-- `backtracking(csp)` (`HW2/Code/backtracking.py` lines 3-18): deep-copy
`csp.domains` into `current_domains`, run one global `ac3` pass, and search
only when it reports consistency, else return `None`. -/
def backtracking [Fintype V] (csp : CSP V A) (sel : VarSelection V A)
    (ord : ValOrdering V A) (σ : Nat → Nat) : Option (V → Option A) :=
  let currentDomains := csp.domains
  let r := ac3 csp σ 0 none none (some currentDomains)
  if r.1 then
    (backtracking_helper csp sel ord σ (csp.variables.length + 1)
      (fun _ => none) r.2.1 r.2.2).1
  else none

theorem ac3Loop_sublist [Fintype V] (csp : CSP V A) (σ : Nat → Nat)
    (asg : V → Option A) (t : Nat) (q : List (V × V)) (doms : V → List A)
    (v : V) :
    List.Sublist ((ac3Loop csp σ asg t q doms).2.1 v) (doms v) := by
  induction t, q, doms using ac3Loop.induct csp σ asg with
  | case1 t doms => rw [ac3Loop]
  | case2 t p rest doms q i arc r hrev hempty =>
      rw [ac3Loop]
      simp only [q, i, arc, r] at hrev hempty
      simp only [hrev, hempty, dite_eq_ite, if_true, if_pos]
      exact revise_sublist _ _ _ _ v
  | case3 t p rest doms q i arc q' r hrev hempty ih =>
      rw [ac3Loop]
      simp only [q, i, arc, q', r] at hrev hempty ih
      simp only [hrev, hempty, dite_eq_ite, if_true, if_pos, if_neg]
      exact ih.trans (revise_sublist _ _ _ _ v)
  | case4 t p rest doms q i arc q' r hrev ih =>
      rw [ac3Loop]
      simp only [q, i, arc, q', r] at hrev ih
      simp only [hrev, dite_eq_ite, if_false, if_neg]
      exact ih

theorem mem_addArc (q : List (V × V)) (a p : V × V) :
    p ∈ addArc q a ↔ p ∈ q ∨ p = a := by
  unfold addArc
  split
  · next h =>
      constructor
      · exact Or.inl
      · rintro (hp | rfl)
        · exact hp
        · exact h
  · simp [List.mem_append]

theorem mem_foldl_addArc (l : List (V × V)) (q0 : List (V × V)) (p : V × V) :
    p ∈ l.foldl addArc q0 ↔ p ∈ q0 ∨ p ∈ l := by
  induction l generalizing q0 with
  | nil => simp
  | cons a rest ih =>
      rw [List.foldl_cons, ih, mem_addArc]
      constructor
      · rintro ((h | rfl) | h)
        · exact Or.inl h
        · exact Or.inr (List.mem_cons_self _ _)
        · exact Or.inr (List.mem_cons_of_mem _ h)
      · rintro (h | h)
        · exact Or.inl (Or.inl h)
        · rcases List.mem_cons.mp h with rfl | h
          · exact Or.inl (Or.inr rfl)
          · exact Or.inr h

theorem mem_dedupArcs (q : List (V × V)) (p : V × V) :
    p ∈ dedupArcs q ↔ p ∈ q := by
  unfold dedupArcs
  rw [mem_foldl_addArc]
  simp

theorem mem_foldl_addArc_pair (l : List V) (x : V) (q0 : List (V × V))
    (p : V × V) :
    p ∈ l.foldl (fun acc xk => addArc acc (xk, x)) q0 ↔
      p ∈ q0 ∨ ∃ xk ∈ l, p = (xk, x) := by
  induction l generalizing q0 with
  | nil => simp
  | cons a rest ih =>
      rw [List.foldl_cons, ih, mem_addArc]
      constructor
      · rintro ((h | rfl) | ⟨xk, hk, rfl⟩)
        · exact Or.inl h
        · exact Or.inr ⟨a, by simp⟩
        · exact Or.inr ⟨xk, by simp [hk]⟩
      · rintro (h | ⟨xk, hk, rfl⟩)
        · exact Or.inl (Or.inl h)
        · rcases List.mem_cons.mp hk with rfl | hk
          · exact Or.inl (Or.inr rfl)
          · exact Or.inr ⟨xk, hk, rfl⟩

theorem mem_seedInner (var : V) (adj : List V) (acc : List (V × V))
    (p : V × V)
    (h : p ∈ adj.foldl (fun acc2 n => acc2 ++ [(var, n), (n, var)]) acc) :
    p ∈ acc ∨ ∃ n ∈ adj, p = (var, n) ∨ p = (n, var) := by
  induction adj generalizing acc with
  | nil => exact Or.inl h
  | cons n ns ihn =>
      rw [List.foldl_cons] at h
      rcases ihn _ h with h2 | ⟨m, hm, h2⟩
      · rcases List.mem_append.mp h2 with h3 | h3
        · exact Or.inl h3
        · rcases List.mem_cons.mp h3 with rfl | h4
          · exact Or.inr ⟨n, List.mem_cons_self _ _, Or.inl rfl⟩
          · rw [List.mem_singleton.mp h4]
            exact Or.inr ⟨n, List.mem_cons_self _ _, Or.inr rfl⟩
      · exact Or.inr ⟨m, List.mem_cons_of_mem _ hm, h2⟩

theorem mem_fullSeed (csp : CSP V A) (p : V × V) (hp : p ∈ fullSeed csp) :
    p.2 ∈ csp.adjacency p.1 ∨ p.1 ∈ csp.adjacency p.2 := by
  unfold fullSeed at hp
  suffices h : ∀ (vars : List V) (acc : List (V × V)),
      p ∈ vars.foldl
        (fun acc var =>
          (csp.adjacency var).foldl
            (fun acc2 n => acc2 ++ [(var, n), (n, var)]) acc) acc →
      p ∈ acc ∨ p.2 ∈ csp.adjacency p.1 ∨ p.1 ∈ csp.adjacency p.2 by
    rcases h csp.variables [] hp with h | h
    · exact absurd h (List.not_mem_nil p)
    · exact h
  intro vars
  induction vars with
  | nil => intro acc h; exact Or.inl h
  | cons var rest ih =>
      intro acc h
      rw [List.foldl_cons] at h
      rcases ih _ h with h | h
      · rcases mem_seedInner var (csp.adjacency var) acc p h with h2 | ⟨n, hn, h2⟩
        · exact Or.inl h2
        · rcases h2 with rfl | rfl
          · exact Or.inr (Or.inl hn)
          · exact Or.inr (Or.inr hn)
      · exact Or.inr h

theorem getD_head_mem (p : V × V) (rest : List (V × V)) (i : Nat) :
    (p :: rest).getD i p ∈ p :: rest := by
  rcases Nat.lt_or_ge i (p :: rest).length with h | h
  · rw [List.getD_eq_getElem _ _ h]
    exact List.getElem_mem h
  · rw [List.getD_eq_default _ _ h]
    exact List.mem_cons_self _ _

theorem reviseGo_mem_xi (c : V → A → V → A → Bool) (xi xj : V)
    (hne : xi ≠ xj) (s : A) (pending : List A) (doms : V → List A) (r : Bool)
    (hsup : (doms xj).any (fun w => c xi s xj w) = true)
    (hs : s ∈ doms xi) :
    s ∈ (reviseGo c xi xj pending doms r).1 xi := by
  induction pending generalizing doms r with
  | nil => exact hs
  | cons a rest ih =>
      rw [reviseGo]
      split
      · exact ih doms r hsup hs
      · next hua =>
          refine ih _ true ?_ ?_
          · rw [Function.update_noteq (Ne.symm hne)]
            exact hsup
          · rw [Function.update_same]
            have hna : s ≠ a := by
              rintro rfl
              exact hua hsup
            exact (List.mem_erase_of_ne hna).mpr hs

theorem revise_keeps_solution (c : V → A → V → A → Bool) (xi xj : V)
    (hne : xi ≠ xj) (sol : V → A)
    (doms : V → List A) (hmem : ∀ v, sol v ∈ doms v)
    (hc : c xi (sol xi) xj (sol xj) = true) (v : V) :
    sol v ∈ (revise c xi xj doms).1 v := by
  by_cases hv : v = xi
  · subst hv
    refine reviseGo_mem_xi c v xj hne (sol v) _ doms false ?_ (hmem v)
    exact List.any_eq_true.mpr ⟨sol xj, hmem xj, hc⟩
  · rw [revise_apply_ne c xi xj doms v hv]
    exact hmem v

theorem ac3Loop_solution_survives [Fintype V] (csp : CSP V A) (σ : Nat → Nat)
    (asg : V → Option A) (sol : V → A)
    (hS : ∀ xi xj, xi ≠ xj →
      csp.constraint_consistent xi (sol xi) xj (sol xj) = true)
    (hirr : ∀ x, x ∉ csp.adjacency x) :
    ∀ (t : Nat) (q : List (V × V)) (doms : V → List A),
      (∀ p ∈ q, p.1 ≠ p.2) → (∀ v, sol v ∈ doms v) →
      ∀ v, sol v ∈ (ac3Loop csp σ asg t q doms).2.1 v := by
  intro t q doms
  induction t, q, doms using ac3Loop.induct csp σ asg with
  | case1 t doms =>
      intro _ hmem v
      rw [ac3Loop]
      exact hmem v
  | case2 t p rest doms q i arc r hrev hempty =>
      intro hq hmem v
      rw [ac3Loop]
      simp only [q, i, arc, r] at hrev hempty ⊢
      simp only [hrev, hempty, if_pos]
      have harc := getD_head_mem p rest (σ t % (p :: rest).length)
      exact revise_keeps_solution _ _ _ (hq _ harc) sol doms hmem
        (hS _ _ (hq _ harc)) v
  | case3 t p rest doms q i arc q' r hrev hempty ih =>
      intro hq hmem v
      rw [ac3Loop]
      simp only [q, i, arc, q', r] at hrev hempty ih ⊢
      simp only [hrev, hempty, if_pos, if_neg]
      have harc := getD_head_mem p rest (σ t % (p :: rest).length)
      have hne := hq _ harc
      refine ih ?_ ?_ v
      · intro p2 hp2
        rw [mem_foldl_addArc_pair] at hp2
        rcases hp2 with hp2 | ⟨xk, hk, rfl⟩
        · exact hq _ ((List.eraseIdx_sublist _ _).mem hp2)
        · have hk2 := List.mem_of_mem_filter hk
          dsimp only
          intro heq
          exact hirr _ (heq ▸ hk2)
      · exact fun v2 => revise_keeps_solution _ _ _ hne sol doms hmem
          (hS _ _ hne) v2
  | case4 t p rest doms q i arc q' r hrev ih =>
      intro hq hmem v
      rw [ac3Loop]
      simp only [q, i, arc, q', r] at hrev ih ⊢
      simp only [hrev, if_neg]
      refine ih (fun p2 hp2 => hq _ ((List.eraseIdx_sublist _ _).mem hp2)) hmem v

theorem ac3SchedLoop_sublist [Fintype V] (csp : CSP V A)
    (q : List (V × V)) (doms : V → List A) (v : V) :
    List.Sublist ((ac3SchedLoop csp q doms).2 v) (doms v) := by
  induction q, doms using ac3SchedLoop.induct csp with
  | case1 doms => rw [ac3SchedLoop]
  | case2 xi xj rest doms r hrev hempty =>
      rw [ac3SchedLoop]
      simp only [r] at hrev hempty
      simp only [hrev, hempty, if_pos]
      exact reviseSched_sublist _ _ _ _ v
  | case3 xi xj rest doms r hrev hempty ih =>
      rw [ac3SchedLoop]
      simp only [r] at hrev hempty ih
      simp only [hrev, hempty, if_pos, if_neg]
      exact ih.trans (reviseSched_sublist _ _ _ _ v)
  | case4 xi xj rest doms r hrev ih =>
      rw [ac3SchedLoop]
      simp only [r] at hrev ih
      simp only [hrev, if_neg]
      exact ih

/-- Completeness of an assignment over a variable list, as both scheduler
collaborators test it in `is_goal`. -/
def completeOK (vars : List V) (asg : V → Option A) : Bool :=
  vars.all fun v => (asg v).isSome

/-- Pairwise `constraint_consistent` over every assigned pair, as
`check_partial_assignment` of `Homework 2/p2_csp_tests/csp_scheduler.py`
computes it. -/
def pairwiseOK (vars : List V) (c : V → A → V → A → Bool)
    (asg : V → Option A) : Bool :=
  vars.all fun v => vars.all fun w =>
    decide (v = w) ||
      match asg v, asg w with
      | some x, some y => c v x w y
      | _, _ => true

/-- Arc consistency of `xi` with respect to `xj`: every remaining value of
`xi` has a supporting value in `xj`'s domain (spec glossary, "Arc
consistency"). -/
def supportedAll (c : V → A → V → A → Bool) (doms : V → List A)
    (xi xj : V) : Prop :=
  ∀ v ∈ doms xi, ∃ w ∈ doms xj, c xi v xj w = true

theorem reviseGo_all_supported (c : V → A → V → A → Bool) (xi xj : V)
    (pending : List A) (doms : V → List A) (r : Bool)
    (h : ∀ v ∈ pending, (doms xj).any (fun w => c xi v xj w) = true) :
    reviseGo c xi xj pending doms r = (doms, r) := by
  induction pending with
  | nil => rfl
  | cons a rest ih =>
      rw [reviseGo, if_pos (h a (List.mem_cons_self _ _))]
      exact ih fun v hv => h v (List.mem_cons_of_mem _ hv)

theorem revise_of_supportedAll (c : V → A → V → A → Bool) (xi xj : V)
    (doms : V → List A) (h : supportedAll c doms xi xj) :
    revise c xi xj doms = (doms, false) := by
  unfold revise
  refine reviseGo_all_supported c xi xj _ doms false fun v hv => ?_
  obtain ⟨w, hw, hc⟩ := h v hv
  exact List.any_eq_true.mpr ⟨w, hw, hc⟩

theorem reviseGo_false_supported (c : V → A → V → A → Bool) (xi xj : V)
    (pending : List A) (doms : V → List A)
    (h : (reviseGo c xi xj pending doms false).2 = false) :
    ∀ v ∈ pending, (doms xj).any (fun w => c xi v xj w) = true := by
  induction pending with
  | nil => intro v hv; exact absurd hv (List.not_mem_nil v)
  | cons a rest ih =>
      rw [reviseGo] at h
      split at h
      · next hs =>
          intro v hv
          rcases List.mem_cons.mp hv with rfl | hv
          · exact hs
          · exact ih h v hv
      · rw [reviseGo_flag_mono] at h
        exact absurd h (by simp)

theorem revise_false_supportedAll (c : V → A → V → A → Bool) (xi xj : V)
    (doms : V → List A) (h : (revise c xi xj doms).2 = false) :
    supportedAll c doms xi xj := by
  intro v hv
  have := reviseGo_false_supported c xi xj _ doms h v hv
  obtain ⟨w, hw, hc⟩ := List.any_eq_true.mp this
  exact ⟨w, hw, hc⟩

theorem reviseGo_filter (c : V → A → V → A → Bool) (xi xj : V)
    (hne : xi ≠ xj) :
    ∀ (pending pre : List A) (doms : V → List A) (r : Bool),
      doms xi = pre ++ pending → (pre ++ pending).Nodup →
      (reviseGo c xi xj pending doms r).1 xi =
        pre ++ pending.filter fun v => (doms xj).any fun w => c xi v xj w := by
  intro pending
  induction pending with
  | nil =>
      intro pre doms r hsplit _
      simp only [reviseGo, List.filter_nil, List.append_nil]
      rw [hsplit, List.append_nil]
  | cons a rest ih =>
      intro pre doms r hsplit hnd
      rw [reviseGo]
      split
      · next hs =>
          have := ih (pre ++ [a]) doms r (by rw [hsplit, List.append_assoc]; rfl)
            (by rwa [List.append_assoc])
          rw [this, List.filter_cons, if_pos hs, List.append_assoc]
          rfl
      · next hs =>
          have hna : a ∉ pre := by
            intro hmem
            rw [List.nodup_append] at hnd
            exact hnd.2.2 hmem (List.mem_cons_self _ _)
          have herase : (doms xi).erase a = pre ++ rest := by
            rw [hsplit, List.erase_append_right _ hna, List.erase_cons_head]
          have hnd' : (pre ++ rest).Nodup :=
            hnd.sublist ((List.sublist_cons_self a rest).append_left pre)
          have hres := ih pre (Function.update doms xi ((doms xi).erase a)) true
            (by rw [Function.update_same, herase]) hnd'
          rw [hres, Function.update_noteq (Ne.symm hne),
            List.filter_cons, if_neg (by simpa using hs)]

theorem revise_filter (c : V → A → V → A → Bool) (xi xj : V)
    (doms : V → List A) (hnd : (doms xi).Nodup) (hne : xi ≠ xj) :
    (revise c xi xj doms).1 xi =
      (doms xi).filter fun v => (doms xj).any fun w => c xi v xj w :=
  reviseGo_filter c xi xj hne (doms xi) [] doms false rfl (by simpa)

theorem revise_supportedAll_self (c : V → A → V → A → Bool) (xi xj : V)
    (doms : V → List A) (hnd : (doms xi).Nodup) (hne : xi ≠ xj) :
    supportedAll c (revise c xi xj doms).1 xi xj := by
  intro v hv
  rw [revise_filter c xi xj doms hnd hne] at hv
  obtain ⟨hvl, hany⟩ := List.mem_filter.mp hv
  obtain ⟨w, hw, hc⟩ := List.any_eq_true.mp hany
  refine ⟨w, ?_, hc⟩
  rw [revise_apply_ne c xi xj doms xj (Ne.symm hne)]
  exact hw

theorem revise_supportedAll_reverse (c : V → A → V → A → Bool) (xi xj : V)
    (doms : V → List A) (hnd : (doms xi).Nodup) (hne : xi ≠ xj)
    (hsym : ∀ x u y v, c x u y v = c y v x u)
    (h : supportedAll c doms xj xi) :
    supportedAll c (revise c xi xj doms).1 xj xi := by
  intro v hv
  rw [revise_apply_ne c xi xj doms xj (Ne.symm hne)] at hv
  obtain ⟨w, hw, hc⟩ := h v hv
  refine ⟨w, ?_, hc⟩
  rw [revise_filter c xi xj doms hnd hne]
  refine List.mem_filter.mpr ⟨hw, ?_⟩
  refine List.any_eq_true.mpr ⟨v, hv, ?_⟩
  rw [hsym xi w xj v]
  exact hc

theorem mem_eraseIdx_or (q : List α) (i : Nat) (p : α) (hp : p ∈ q)
    (hi : i < q.length) :
    p ∈ q.eraseIdx i ∨ p = q[i] := by
  induction q generalizing i with
  | nil => exact absurd hp (List.not_mem_nil p)
  | cons a rest ih =>
      match i with
      | 0 =>
          rcases List.mem_cons.mp hp with rfl | hp
          · exact Or.inr rfl
          · exact Or.inl hp
      | i + 1 =>
          rcases List.mem_cons.mp hp with rfl | hp
          · exact Or.inl (List.mem_cons_self _ _)
          · have hi' : i < rest.length := by simpa using hi
            rcases ih i hp hi' with h | h
            · exact Or.inl (List.mem_cons_of_mem _ h)
            · right
              rw [List.getElem_cons_succ]
              exact h

/-- After a full run of the `HW2/Code` `ac3` loop that reports consistency,
started from a worklist containing every adjacency arc not already
supported, every adjacency arc of the graph is arc-consistent in the
returned domains.  Hypotheses: symmetric constraint function, symmetric
irreflexive adjacency, duplicate-free domains, empty assignment (the
initial global pass of the solver). -/
theorem ac3Loop_arc_consistent [Fintype V] (csp : CSP V A) (σ : Nat → Nat)
    (asg : V → Option A)
    (hasg : ∀ v, asg v = none)
    (hsym : ∀ x u y v,
      csp.constraint_consistent x u y v = csp.constraint_consistent y v x u)
    (hadj : ∀ x y, y ∈ csp.adjacency x → x ∈ csp.adjacency y)
    (hirr : ∀ x, x ∉ csp.adjacency x) :
    ∀ (t : Nat) (q : List (V × V)) (doms : V → List A),
      (∀ p ∈ q, p.2 ∈ csp.adjacency p.1) →
      (∀ v, (doms v).Nodup) →
      (∀ x y, y ∈ csp.adjacency x →
        (x, y) ∈ q ∨ supportedAll csp.constraint_consistent doms x y) →
      (ac3Loop csp σ asg t q doms).1 = true →
      ∀ x y, y ∈ csp.adjacency x →
        supportedAll csp.constraint_consistent
          (ac3Loop csp σ asg t q doms).2.1 x y := by
  intro t q doms
  induction t, q, doms using ac3Loop.induct csp σ asg with
  | case1 t doms =>
      intro _ _ hinv _ x y hxy
      rw [ac3Loop]
      rcases hinv x y hxy with h | h
      · exact absurd h (List.not_mem_nil _)
      · exact h
  | case2 t p rest doms q i arc r hrev hempty =>
      intro hwf hnd hinv hres x y hxy
      rw [ac3Loop] at hres
      simp only [q, i, arc, r] at hrev hempty hres
      simp only [hrev, hempty, if_pos] at hres
      exact absurd hres (by simp)
  | case3 t p rest doms q i arc q' r hrev hempty ih =>
      intro hwf hnd hinv hres x y hxy
      rw [ac3Loop] at hres ⊢
      simp only [q, i, arc, q', r] at hrev hempty ih hres ⊢
      simp only [hrev, hempty, if_pos, if_neg] at hres ⊢
      have hilt : σ t % (p :: rest).length < (p :: rest).length :=
        Nat.mod_lt _ (by simp)
      have harcmem : (p :: rest).getD (σ t % (p :: rest).length) p ∈ p :: rest :=
        getD_head_mem p rest _
      have harcadj : ((p :: rest).getD (σ t % (p :: rest).length) p).2 ∈
          csp.adjacency ((p :: rest).getD (σ t % (p :: rest).length) p).1 :=
        hwf _ harcmem
      have harcne : ((p :: rest).getD (σ t % (p :: rest).length) p).1 ≠
          ((p :: rest).getD (σ t % (p :: rest).length) p).2 := by
        intro he
        exact hirr _ (he ▸ harcadj)
      refine ih ?_ ?_ ?_ hres x y hxy
      · -- worklist wellformedness is preserved
        intro p2 hp2
        rw [mem_foldl_addArc_pair] at hp2
        rcases hp2 with hp2 | ⟨xk, hk, rfl⟩
        · exact hwf _ ((List.eraseIdx_sublist _ _).mem hp2)
        · exact hadj _ _ (List.mem_of_mem_filter hk)
      · -- domains stay duplicate-free
        intro v
        exact (revise_sublist _ _ _ _ v).nodup (hnd v)
      · -- the arc invariant is preserved
        intro x2 y2 hxy2
        rcases hinv x2 y2 hxy2 with hq2 | hsup
        · -- the arc was in the worklist
          rcases mem_eraseIdx_or (p :: rest) _ _ hq2 hilt with h2 | h2
          · left
            rw [mem_foldl_addArc_pair]
            exact Or.inl h2
          · -- it is the popped arc: revise makes it consistent
            right
            have hx2 : x2 = ((p :: rest).getD (σ t % (p :: rest).length) p).1 := by
              rw [List.getD_eq_getElem _ _ hilt]
              exact congrArg Prod.fst h2
            have hy2 : y2 = ((p :: rest).getD (σ t % (p :: rest).length) p).2 := by
              rw [List.getD_eq_getElem _ _ hilt]
              exact congrArg Prod.snd h2
            rw [hx2, hy2]
            exact revise_supportedAll_self _ _ _ _ (hnd _) harcne
        · -- the arc was already supported
          by_cases hy2 : y2 = ((p :: rest).getD (σ t % (p :: rest).length) p).1
          · -- its support set was revised
            by_cases hx2 : x2 = ((p :: rest).getD (σ t % (p :: rest).length) p).2
            · -- the reverse of the popped arc: symmetry preserves support
              right
              rw [hx2, hy2]
              rw [hx2, hy2] at hsup
              exact revise_supportedAll_reverse _ _ _ _ (hnd _) harcne hsym hsup
            · -- re-enqueued arc
              left
              rw [mem_foldl_addArc_pair]
              refine Or.inr ⟨x2, ?_, by rw [hy2]⟩
              refine List.mem_filter.mpr ⟨?_, ?_⟩
              · rw [← hy2]; exact hadj _ _ hxy2
              · simp only [Bool.and_eq_true, decide_eq_true_eq,
                  Option.isNone_iff_eq_none]
                exact ⟨hx2, hasg x2⟩
          · -- both endpoints untouched on the support side
            right
            intro v hv
            have hvx : v ∈ doms x2 := (revise_sublist _ _ _ _ x2).mem hv
            obtain ⟨w, hw, hc⟩ := hsup v hvx
            refine ⟨w, ?_, hc⟩
            rw [revise_apply_ne _ _ _ _ y2 hy2]
            exact hw
  | case4 t p rest doms q i arc q' r hrev ih =>
      intro hwf hnd hinv hres x y hxy
      rw [ac3Loop] at hres ⊢
      simp only [q, i, arc, q', r] at hrev ih hres ⊢
      simp only [hrev, if_neg] at hres ⊢
      have hilt : σ t % (p :: rest).length < (p :: rest).length :=
        Nat.mod_lt _ (by simp)
      refine ih ?_ hnd ?_ hres x y hxy
      · exact fun p2 hp2 => hwf _ ((List.eraseIdx_sublist _ _).mem hp2)
      · intro x2 y2 hxy2
        rcases hinv x2 y2 hxy2 with hq2 | hsup
        · rcases mem_eraseIdx_or (p :: rest) _ _ hq2 hilt with h2 | h2
          · exact Or.inl h2
          · right
            have hx2 : x2 = ((p :: rest).getD (σ t % (p :: rest).length) p).1 := by
              rw [List.getD_eq_getElem _ _ hilt]
              exact congrArg Prod.fst h2
            have hy2 : y2 = ((p :: rest).getD (σ t % (p :: rest).length) p).2 := by
              rw [List.getD_eq_getElem _ _ hilt]
              exact congrArg Prod.snd h2
            rw [hx2, hy2]
            exact revise_false_supportedAll _ _ _ _ (by simpa using hrev)
        · exact Or.inr hsup

/-- On domains in which every adjacency arc is already consistent, any run
of the `HW2/Code` `ac3` loop over a worklist of adjacency arcs removes
nothing and reports consistency. -/
theorem ac3Loop_stable [Fintype V] (csp : CSP V A) (σ : Nat → Nat)
    (asg : V → Option A) :
    ∀ (t : Nat) (q : List (V × V)) (doms : V → List A),
      (∀ p ∈ q, p.2 ∈ csp.adjacency p.1) →
      (∀ x y, y ∈ csp.adjacency x →
        supportedAll csp.constraint_consistent doms x y) →
      (ac3Loop csp σ asg t q doms).1 = true ∧
        (ac3Loop csp σ asg t q doms).2.1 = doms := by
  intro t q doms
  induction t, q, doms using ac3Loop.induct csp σ asg with
  | case1 t doms =>
      intro _ _
      rw [ac3Loop]
      exact ⟨rfl, rfl⟩
  | case2 t p rest doms q i arc r hrev hempty =>
      intro hwf hall
      exfalso
      simp only [q, i, arc, r] at hrev
      have harcadj := hwf _ (getD_head_mem p rest (σ t % (p :: rest).length))
      have := revise_of_supportedAll csp.constraint_consistent _ _ doms
        (hall _ _ harcadj)
      rw [this] at hrev
      exact absurd hrev (by simp)
  | case3 t p rest doms q i arc q' r hrev hempty ih =>
      intro hwf hall
      exfalso
      simp only [q, i, arc, r] at hrev
      have harcadj := hwf _ (getD_head_mem p rest (σ t % (p :: rest).length))
      have := revise_of_supportedAll csp.constraint_consistent _ _ doms
        (hall _ _ harcadj)
      rw [this] at hrev
      exact absurd hrev (by simp)
  | case4 t p rest doms q i arc q' r hrev ih =>
      intro hwf hall
      rw [ac3Loop]
      simp only [q, i, arc, q', r] at hrev ih ⊢
      simp only [hrev, if_neg]
      exact ih (fun p2 hp2 => hwf _ ((List.eraseIdx_sublist _ _).mem hp2)) hall

theorem seedInner_mono (var : V) (adj : List V) (acc : List (V × V))
    (p : V × V) (hp : p ∈ acc) :
    p ∈ adj.foldl (fun acc2 n => acc2 ++ [(var, n), (n, var)]) acc := by
  induction adj generalizing acc with
  | nil => exact hp
  | cons n ns ih =>
      rw [List.foldl_cons]
      exact ih _ (List.mem_append_left _ hp)

theorem seedInner_complete (var : V) (adj : List V) (acc : List (V × V))
    (y : V) (hy : y ∈ adj) :
    (var, y) ∈ adj.foldl (fun acc2 n => acc2 ++ [(var, n), (n, var)]) acc ∧
      (y, var) ∈ adj.foldl (fun acc2 n => acc2 ++ [(var, n), (n, var)]) acc := by
  induction adj generalizing acc with
  | nil => exact absurd hy (List.not_mem_nil y)
  | cons n ns ih =>
      rw [List.foldl_cons]
      rcases List.mem_cons.mp hy with rfl | hy
      · constructor
        · exact seedInner_mono _ _ _ _ (by simp)
        · exact seedInner_mono _ _ _ _ (by simp)
      · exact ih _ hy

theorem seedOuter_mono (csp : CSP V A) (vars : List V) (acc : List (V × V))
    (p : V × V) (hp : p ∈ acc) :
    p ∈ vars.foldl
      (fun acc var =>
        (csp.adjacency var).foldl
          (fun acc2 n => acc2 ++ [(var, n), (n, var)]) acc) acc := by
  induction vars generalizing acc with
  | nil => exact hp
  | cons var rest ih =>
      rw [List.foldl_cons]
      exact ih _ (seedInner_mono var _ acc p hp)

theorem fullSeed_complete (csp : CSP V A) (x y : V)
    (hx : x ∈ csp.variables) (hy : y ∈ csp.adjacency x) :
    (x, y) ∈ fullSeed csp ∧ (y, x) ∈ fullSeed csp := by
  unfold fullSeed
  suffices h : ∀ (vars : List V) (acc : List (V × V)), x ∈ vars →
      (x, y) ∈ vars.foldl
        (fun acc var =>
          (csp.adjacency var).foldl
            (fun acc2 n => acc2 ++ [(var, n), (n, var)]) acc) acc ∧
      (y, x) ∈ vars.foldl
        (fun acc var =>
          (csp.adjacency var).foldl
            (fun acc2 n => acc2 ++ [(var, n), (n, var)]) acc) acc by
    exact h csp.variables [] hx
  intro vars
  induction vars with
  | nil => intro acc h; exact absurd h (List.not_mem_nil x)
  | cons var rest ih =>
      intro acc hmem
      rw [List.foldl_cons]
      rcases List.mem_cons.mp hmem with hxv | hmem
      · rw [hxv] at hy
        constructor
        · rw [hxv]
          exact seedOuter_mono csp rest _ _
            (seedInner_complete var _ acc y hy).1
        · rw [hxv]
          exact seedOuter_mono csp rest _ _
            (seedInner_complete var _ acc y hy).2
      · exact ih _ hmem

theorem helperTry_sound [Fintype V] (csp : CSP V A) (sel : VarSelection V A)
    (ord : ValOrdering V A) (σ : Nat → Nat) (fuel : Nat) (var : V)
    (ihBH : ∀ asg doms t res t',
      backtracking_helper csp sel ord σ fuel asg doms t = (some res, t') →
      csp.is_goal res = true) :
    ∀ (vals : List A) (asg : V → Option A) (doms : V → List A) (t : Nat)
      (res : V → Option A) (t' : Nat),
      helperTry csp sel ord σ fuel var asg doms vals t = (some res, t') →
      csp.is_goal res = true := by
  intro vals
  induction vals with
  | nil =>
      intro asg doms t res t' h
      rw [helperTry] at h
      exact absurd h (by simp)
  | cons val rest ih =>
      intro asg doms t res t' h
      rw [helperTry] at h
      split at h
      · simp only [] at h
        split at h
        · split at h
          · next result0 t0 heq =>
              simp only [Prod.mk.injEq, Option.some.injEq] at h
              exact h.1 ▸ ihBH _ _ _ _ _ heq
          · next t0 heq => exact ih _ _ _ _ _ h
        · exact ih _ _ _ _ _ h
      · exact ih _ _ _ _ _ h

theorem backtracking_helper_sound [Fintype V] (csp : CSP V A)
    (sel : VarSelection V A) (ord : ValOrdering V A) (σ : Nat → Nat) :
    ∀ (fuel : Nat) (asg : V → Option A) (doms : V → List A) (t : Nat)
      (res : V → Option A) (t' : Nat),
      backtracking_helper csp sel ord σ fuel asg doms t = (some res, t') →
      csp.is_goal res = true := by
  intro fuel
  induction fuel with
  | zero =>
      intro asg doms t res t' h
      rw [backtracking_helper] at h
      exact absurd h (by simp)
  | succ fuel ih =>
      intro asg doms t res t' h
      rw [backtracking_helper] at h
      split at h
      · next hgoal =>
          simp only [Prod.mk.injEq, Option.some.injEq] at h
          exact h.1 ▸ hgoal
      · split at h
        · exact absurd h (by simp)
        · next var heq =>
            exact helperTry_sound csp sel ord σ fuel var ih _ _ _ _ _ _ h

theorem tupleLt_true_iff (p q : Nat × Int) :
    tupleLt p q = true ↔ (p.1 < q.1 ∨ (p.1 = q.1 ∧ p.2 < q.2)) := by
  simp [tupleLt]

theorem tupleLt_false_iff (p q : Nat × Int) :
    tupleLt p q = false ↔ ¬(p.1 < q.1 ∨ (p.1 = q.1 ∧ p.2 < q.2)) := by
  rw [← tupleLt_true_iff]
  simp

theorem pythonMinTuple_foldl_spec (key : α → Nat × Int) (xs : List α)
    (b : α) :
    (xs.foldl (fun best y => if tupleLt (key y) (key best) then y else best) b
        ∈ b :: xs) ∧
      ∀ y ∈ b :: xs,
        tupleLt (key y)
          (key (xs.foldl
            (fun best y => if tupleLt (key y) (key best) then y else best) b)) =
          false := by
  induction xs generalizing b with
  | nil =>
      simp only [List.foldl_nil]
      refine ⟨List.mem_cons_self _ _, ?_⟩
      intro y hy
      rw [List.mem_singleton.mp hy]
      rw [tupleLt_false_iff]
      omega
  | cons y ys ih =>
      rw [List.foldl_cons]
      by_cases hlt : tupleLt (key y) (key b) = true
      · rw [if_pos hlt]
        obtain ⟨hmem, hmin⟩ := ih y
        refine ⟨?_, ?_⟩
        · rcases List.mem_cons.mp hmem with h | h
          · rw [h]; exact List.mem_cons_of_mem _ (List.mem_cons_self _ _)
          · exact List.mem_cons_of_mem _ (List.mem_cons_of_mem _ h)
        · intro w hw
          rcases List.mem_cons.mp hw with rfl | hw
          · have h1 := hmin y (List.mem_cons_self _ _)
            rw [tupleLt_true_iff] at hlt
            rw [tupleLt_false_iff] at h1 ⊢
            omega
          · exact hmin w hw
      · rw [if_neg hlt]
        obtain ⟨hmem, hmin⟩ := ih b
        refine ⟨?_, ?_⟩
        · rcases List.mem_cons.mp hmem with h | h
          · rw [h]; exact List.mem_cons_self _ _
          · exact List.mem_cons_of_mem _ (List.mem_cons_of_mem _ h)
        · intro w hw
          rcases List.mem_cons.mp hw with rfl | hw
          · exact hmin w (List.mem_cons_self _ _)
          · rcases List.mem_cons.mp hw with rfl | hw
            · have h1 := hmin b (List.mem_cons_self _ _)
              have h2 : tupleLt (key w) (key b) = false :=
                Bool.not_eq_true _ ▸ hlt
              rw [tupleLt_false_iff] at h1 h2 ⊢
              omega
            · exact hmin w (List.mem_cons_of_mem _ hw)

theorem pythonMinTuple_spec (key : α → Nat × Int) (l : List α) (x : α)
    (h : pythonMinTuple key l = some x) :
    x ∈ l ∧ ∀ y ∈ l, tupleLt (key y) (key x) = false := by
  match l with
  | [] => exact absurd h (by simp [pythonMinTuple])
  | a :: xs =>
      obtain ⟨hmem, hmin⟩ := pythonMinTuple_foldl_spec key xs a
      have hx : xs.foldl
          (fun best y => if tupleLt (key y) (key best) then y else best) a = x := by
        simpa [pythonMinTuple] using h
      rw [hx] at hmem hmin
      exact ⟨hmem, hmin⟩

end Engine

section StoreModel

variable {V A : Type} [DecidableEq V] [DecidableEq A]

/-! A store-passing model of the same solver, making the Python heap
explicit: every domain list is a cell in a `Store`, a domain dict is a map
from variables to cell references, `deepcopy` allocates fresh cells, and
`list.remove` writes the shrunk list back into the cell it came from.  This
is the model in which "the solver never mutates `csp.domains`" is a
theorem rather than a convention: the deep copies in `backtracking` and
`backtracking_helper` are what keep every written reference disjoint from
the problem's own cells. -/

abbrev Store (A : Type) := List (List A)

def readS (st : Store A) (r : Nat) : List A := st.getD r []

def writeS (st : Store A) (r : Nat) (l : List A) : Store A := st.set r l

def allocS (st : Store A) (l : List A) : Store A × Nat :=
  (st ++ [l], st.length)

def storeSize (st : Store A) : Nat := (st.map List.length).sum

theorem length_writeS (st : Store A) (r : Nat) (l : List A) :
    (writeS st r l).length = st.length :=
  List.length_set st r l

theorem readS_writeS_ne (st : Store A) (r r' : Nat) (l : List A)
    (h : r ≠ r') : readS (writeS st r' l) r = readS st r := by
  unfold readS writeS
  induction st generalizing r r' with
  | nil => rfl
  | cons c rest ih =>
      match r', r with
      | 0, 0 => exact absurd rfl h
      | 0, rr + 1 => rfl
      | rr' + 1, 0 => rfl
      | rr' + 1, rr + 1 =>
          simp only [List.set_cons_succ, List.getD_cons_succ]
          exact ih rr rr' fun he => h (by rw [he])

theorem readS_append (st : Store A) (r : Nat) (l : List A)
    (h : r < st.length) : readS (st ++ [l]) r = readS st r := by
  unfold readS
  rw [List.getD_eq_getElem _ _ h, List.getD_eq_getElem _ _
    (by rw [List.length_append]; omega)]
  exact List.getElem_append_left h

theorem readS_pos_of_ne_nil (st : Store A) (r : Nat)
    (h : readS st r ≠ []) : r < st.length := by
  by_contra hge
  rw [not_lt] at hge
  exact h (List.getD_eq_default _ _ hge)

theorem storeSize_writeS_le (st : Store A) (r : Nat) (l : List A)
    (h : l.length ≤ (readS st r).length) :
    storeSize (writeS st r l) ≤ storeSize st := by
  unfold storeSize writeS readS at *
  induction st generalizing r with
  | nil => simp
  | cons c rest ih =>
      match r with
      | 0 =>
          simp only [List.set_cons_zero, List.map_cons, List.sum_cons]
          simp only [List.getD_cons_zero] at h
          omega
      | rr + 1 =>
          simp only [List.set_cons_succ, List.map_cons, List.sum_cons]
          simp only [List.getD_cons_succ] at h
          have := ih rr h
          omega

theorem storeSize_writeS_lt (st : Store A) (r : Nat) (l : List A)
    (hr : r < st.length) (h : l.length < (readS st r).length) :
    storeSize (writeS st r l) < storeSize st := by
  unfold storeSize writeS readS at *
  induction st generalizing r with
  | nil => exact absurd hr (by simp)
  | cons c rest ih =>
      match r with
      | 0 =>
          simp only [List.set_cons_zero, List.map_cons, List.sum_cons]
          simp only [List.getD_cons_zero] at h
          omega
      | rr + 1 =>
          simp only [List.set_cons_succ, List.map_cons, List.sum_cons]
          simp only [List.getD_cons_succ] at h
          have := ih rr (by simpa using hr) h
          omega

/-- Store-passing `revise` loop: iterate over a copy of the cell holding
`current_domains[xi]`, removing unsupported values in place. -/
def reviseGoS (c : V → A → V → A → Bool) (xi xj : V) (dmap : V → Nat) :
    List A → Store A → Bool → Store A × Bool
  | [], st, revised => (st, revised)
  | v :: rest, st, revised =>
      if (readS st (dmap xj)).any (fun w => c xi v xj w) then
        reviseGoS c xi xj dmap rest st revised
      else
        reviseGoS c xi xj dmap rest
          (writeS st (dmap xi) ((readS st (dmap xi)).erase v)) true

def reviseS (c : V → A → V → A → Bool) (xi xj : V) (dmap : V → Nat)
    (st : Store A) : Store A × Bool :=
  reviseGoS c xi xj dmap (readS st (dmap xi)) st false

theorem reviseGoS_length (c : V → A → V → A → Bool) (xi xj : V)
    (dmap : V → Nat) (pending : List A) (st : Store A) (r : Bool) :
    (reviseGoS c xi xj dmap pending st r).1.length = st.length := by
  induction pending generalizing st r with
  | nil => rfl
  | cons a rest ih =>
      rw [reviseGoS]
      split
      · exact ih st r
      · rw [ih]
        exact length_writeS _ _ _

theorem reviseGoS_size_le (c : V → A → V → A → Bool) (xi xj : V)
    (dmap : V → Nat) (pending : List A) (st : Store A) (r : Bool) :
    storeSize (reviseGoS c xi xj dmap pending st r).1 ≤ storeSize st := by
  induction pending generalizing st r with
  | nil => exact le_refl _
  | cons a rest ih =>
      rw [reviseGoS]
      split
      · exact ih st r
      · refine le_trans (ih _ _) ?_
        exact storeSize_writeS_le _ _ _ (List.erase_sublist _ _).length_le

theorem reviseGoS_flag_lt (c : V → A → V → A → Bool) (xi xj : V)
    (dmap : V → Nat) (pending : List A) (st : Store A)
    (hcnt : ∀ u, pending.count u ≤ ((readS st (dmap xi)).count u))
    (hflag : (reviseGoS c xi xj dmap pending st false).2 = true) :
    storeSize (reviseGoS c xi xj dmap pending st false).1 < storeSize st := by
  induction pending generalizing st with
  | nil => simp [reviseGoS] at hflag
  | cons a rest ih =>
      rw [reviseGoS] at hflag ⊢
      split at hflag
      · next hs =>
          rw [if_pos hs]
          refine ih st (fun u => ?_) hflag
          refine le_trans ?_ (hcnt u)
          simp [List.count_cons]
      · next hs =>
          rw [if_neg hs]
          have hmem : a ∈ readS st (dmap xi) := by
            have h1 : 1 ≤ (a :: rest).count a := by simp [List.count_cons]
            exact List.count_pos_iff.mp (lt_of_lt_of_le h1 (hcnt a))
          have hlt : storeSize
              (writeS st (dmap xi) ((readS st (dmap xi)).erase a)) <
              storeSize st := by
            refine storeSize_writeS_lt _ _ _
              (readS_pos_of_ne_nil _ _ (List.ne_nil_of_mem hmem)) ?_
            rw [List.length_erase_of_mem hmem]
            exact Nat.sub_lt (List.length_pos_of_mem hmem) (by omega)
          exact lt_of_le_of_lt (reviseGoS_size_le _ _ _ _ _ _ _) hlt

theorem reviseS_flag_lt (c : V → A → V → A → Bool) (xi xj : V)
    (dmap : V → Nat) (st : Store A)
    (h : (reviseS c xi xj dmap st).2 = true) :
    storeSize (reviseS c xi xj dmap st).1 < storeSize st :=
  reviseGoS_flag_lt c xi xj dmap _ st (fun _ => le_refl _) h

theorem reviseGoS_frame (c : V → A → V → A → Bool) (xi xj : V)
    (dmap : V → Nat) (N : Nat) (hxi : N ≤ dmap xi)
    (pending : List A) (st : Store A) (r : Bool) :
    ∀ r2 < N, readS (reviseGoS c xi xj dmap pending st r).1 r2 = readS st r2 := by
  induction pending generalizing st r with
  | nil => intro r2 _; rfl
  | cons a rest ih =>
      intro r2 hr2
      rw [reviseGoS]
      split
      · exact ih st r r2 hr2
      · rw [ih _ _ r2 hr2]
        exact readS_writeS_ne _ _ _ _ (by omega)

/-- The `ac3` worklist loop in the store model: identical control flow to
`ac3Loop`, with `current_domains` as a reference map `dmap` into the
store. -/
def ac3LoopS (csp : CSP V A) (σ : Nat → Nat) (asg : V → Option A)
    (dmap : V → Nat) :
    Nat → List (V × V) → Store A → Bool × (Store A × Nat)
  | t, [], st => (true, st, t)
  | t, p :: rest, st =>
      let q := p :: rest
      let i := σ t % q.length
      let arc := q.getD i p
      let q' := q.eraseIdx i
      let r := reviseS csp.constraint_consistent arc.1 arc.2 dmap st
      if hrev : r.2 = true then
        if readS r.1 (dmap arc.1) = [] then (false, r.1, t)
        else
          ac3LoopS csp σ asg dmap (t + 1)
            (((csp.adjacency arc.1).filter fun n =>
                n ≠ arc.2 && (asg n).isNone).foldl
              (fun acc xk => addArc acc (xk, arc.1)) q') r.1
      else ac3LoopS csp σ asg dmap (t + 1) q' st
  termination_by t q st => (storeSize st, q.length)
  decreasing_by
  · exact Prod.Lex.left _ _ (reviseS_flag_lt _ _ _ _ _ hrev)
  · exact Prod.Lex.right _ (by simp [List.length_eraseIdx, Nat.mod_lt])

/-- `ac3` in the store model (defaulted arguments as in `ac3`). -/
def ac3S (csp : CSP V A) (σ : Nat → Nat) (t : Nat)
    (arcsQueue : Option (List (V × V))) (assignment : Option (V → Option A))
    (dmap : V → Nat) (st : Store A) : Bool × (Store A × Nat) :=
  ac3LoopS csp σ (assignment.getD (fun _ => none)) dmap t
    (dedupArcs (arcsQueue.getD (fullSeed csp))) st

/-- `child_domains = deepcopy(current_domains)`: allocate a fresh cell per
variable of the dict, copying its current content. -/
def deepcopyS (vars : List V) (dmap : V → Nat) (st : Store A) :
    (V → Nat) × Store A :=
  vars.foldl
    (fun acc var =>
      let al := allocS acc.2 (readS acc.2 (acc.1 var))
      (Function.update acc.1 var al.2, al.1))
    (dmap, st)

mutual
/-- `backtracking_helper` in the store model. -/
def backtracking_helperS (csp : CSP V A) (sel : VarSelection V A)
    (ord : ValOrdering V A) (σ : Nat → Nat) :
    Nat → (V → Option A) → (V → Nat) → Store A → Nat →
      Option (V → Option A) × Store A × Nat
  | 0, _, _, st, t => (none, st, t)
  | fuel + 1, assignment, dm, st, t =>
      if csp.is_goal assignment then (some assignment, st, t)
      else
        match sel csp assignment (fun v => readS st (dm v)) with
        | none => (none, st, t)
        | some var =>
            helperTryS csp sel ord σ fuel var assignment dm
              (ord csp var assignment (fun v => readS st (dm v))) st t
  termination_by fuel _ _ _ _ => (fuel, 0)

/-- The value loop of `backtracking_helper` in the store model.  On branch
failure the search continues with the same heap (dead cells stay), but the
frame's own dict `dm` is unchanged. -/
def helperTryS (csp : CSP V A) (sel : VarSelection V A)
    (ord : ValOrdering V A) (σ : Nat → Nat) (fuel : Nat) (var : V)
    (assignment : V → Option A) (dm : V → Nat) :
    List A → Store A → Nat → Option (V → Option A) × Store A × Nat
  | [], st, t => (none, st, t)
  | val :: rest, st, t =>
      let asg' := Function.update assignment var (some val)
      let al := allocS st [val]
      let dm' := Function.update dm var al.2
      if csp.check_partial_assignment asg' then
        let dc := deepcopyS csp.variables dm' al.1
        let q := dedupArcs
          (((csp.adjacency var).filter fun n => (asg' n).isNone).map
            fun n => (n, var))
        let r := ac3LoopS csp σ asg' dc.1 t q dc.2
        if r.1 then
          match backtracking_helperS csp sel ord σ fuel asg' dc.1 r.2.1 r.2.2 with
          | (some res, st2, t') => (some res, st2, t')
          | (none, st2, t') =>
              helperTryS csp sel ord σ fuel var assignment dm rest st2 t'
        else helperTryS csp sel ord σ fuel var assignment dm rest r.2.1 r.2.2
      else helperTryS csp sel ord σ fuel var assignment dm rest al.1 t
  termination_by vals _ _ => (fuel, vals.length + 1)
end

/-- `backtracking` in the store model.  The problem's own domain dict is
the reference map `cspRefs` into the initial store; the first loop performs
`current_domains[var] = deepcopy(csp.domains[var])`.  Variables outside
`csp.variables` (absent from the Python dict) are pointed at a fresh
scratch cell. -/
def backtrackingS (csp : CSP V A) (cspRefs : V → Nat)
    (sel : VarSelection V A) (ord : ValOrdering V A) (σ : Nat → Nat)
    (st0 : Store A) : Option (V → Option A) × Store A :=
  let dummy := allocS st0 []
  let init := csp.variables.foldl
    (fun acc var =>
      let al := allocS acc.2 (readS acc.2 (cspRefs var))
      (Function.update acc.1 var al.2, al.1))
    ((fun _ => dummy.2), dummy.1)
  let r := ac3S csp σ 0 none none init.1 init.2
  if r.1 then
    let h := backtracking_helperS csp sel ord σ (csp.variables.length + 1)
      (fun _ => none) init.1 r.2.1 r.2.2
    (h.1, h.2.1)
  else (none, r.2.1)

/-- Frame relation: the store evolved from `st` to `st'` without touching
any cell below `N`, and stayed at least `N` cells long. -/
def FrameLe (N : Nat) (st st' : Store A) : Prop :=
  (∀ r2 < N, readS st' r2 = readS st r2) ∧ N ≤ st'.length

theorem frameLe_rfl {N : Nat} {st : Store A} (h : N ≤ st.length) :
    FrameLe N st st :=
  ⟨fun _ _ => Eq.refl _, h⟩

theorem FrameLe.trans {N : Nat} {s1 s2 s3 : Store A} (h12 : FrameLe N s1 s2)
    (h23 : FrameLe N s2 s3) : FrameLe N s1 s3 :=
  ⟨fun r2 hr => (h23.1 r2 hr).trans (h12.1 r2 hr), h23.2⟩

theorem frameLe_allocS {N : Nat} {st : Store A} (h : N ≤ st.length)
    (l : List A) : FrameLe N st (allocS st l).1 := by
  refine ⟨fun r2 hr => readS_append _ _ _ (lt_of_lt_of_le hr h), ?_⟩
  simp only [allocS, List.length_append, List.length_cons, List.length_nil]
  omega

theorem frameLe_reviseS {N : Nat} (c : V → A → V → A → Bool) (xi xj : V)
    (dmap : V → Nat) {st : Store A} (hxi : N ≤ dmap xi)
    (hlen : N ≤ st.length) : FrameLe N st (reviseS c xi xj dmap st).1 := by
  refine ⟨reviseGoS_frame c xi xj dmap N hxi _ st false, ?_⟩
  unfold reviseS
  rw [reviseGoS_length]
  exact hlen

theorem frameLe_ac3LoopS (csp : CSP V A) (σ : Nat → Nat) (asg : V → Option A)
    (dmap : V → Nat) (N : Nat) (hdm : ∀ v, N ≤ dmap v) :
    ∀ (t : Nat) (q : List (V × V)) (st : Store A), N ≤ st.length →
      FrameLe N st (ac3LoopS csp σ asg dmap t q st).2.1 := by
  intro t q st
  induction t, q, st using ac3LoopS.induct csp σ asg dmap with
  | case1 t st =>
      intro hlen
      rw [ac3LoopS]
      exact frameLe_rfl hlen
  | case2 t p rest st q i arc r hrev hempty =>
      intro hlen
      rw [ac3LoopS]
      simp only [q, i, arc, r] at hrev hempty ⊢
      simp only [hrev, hempty, if_pos]
      exact frameLe_reviseS csp.constraint_consistent
        ((p :: rest).getD (σ t % (p :: rest).length) p).1
        ((p :: rest).getD (σ t % (p :: rest).length) p).2 dmap (hdm _) hlen
  | case3 t p rest st q i arc q' r hrev hempty ih =>
      intro hlen
      rw [ac3LoopS]
      simp only [q, i, arc, q', r] at hrev hempty ih ⊢
      simp only [hrev, hempty, if_pos, if_neg]
      have h1 := frameLe_reviseS csp.constraint_consistent
        ((p :: rest).getD (σ t % (p :: rest).length) p).1
        ((p :: rest).getD (σ t % (p :: rest).length) p).2 dmap
        (hdm _) hlen
      exact h1.trans (ih h1.2)
  | case4 t p rest st q i arc q' r hrev ih =>
      intro hlen
      rw [ac3LoopS]
      simp only [q, i, arc, q', r] at hrev ih ⊢
      simp only [hrev, if_neg]
      exact ih hlen

theorem deepcopyS_spec (N : Nat) :
    ∀ (vars : List V) (dmap : V → Nat) (st : Store A),
      (∀ v, N ≤ dmap v) → N ≤ st.length →
      FrameLe N st (deepcopyS vars dmap st).2 ∧
        ∀ v, N ≤ (deepcopyS vars dmap st).1 v := by
  intro vars
  induction vars with
  | nil =>
      intro dmap st hdm hlen
      exact ⟨frameLe_rfl hlen, hdm⟩
  | cons var rest ih =>
      intro dmap st hdm hlen
      have hstep : deepcopyS (var :: rest) dmap st =
          deepcopyS rest (Function.update dmap var st.length)
            (allocS st (readS st (dmap var))).1 := by
        unfold deepcopyS
        rw [List.foldl_cons]
        rfl
      rw [hstep]
      have hal := frameLe_allocS hlen (readS st (dmap var))
      have hdm' : ∀ v, N ≤ Function.update dmap var st.length v := by
        intro v
        by_cases hv : v = var
        · rw [hv, Function.update_same]; exact hlen
        · rw [Function.update_noteq hv]; exact hdm v
      obtain ⟨hf, hr⟩ := ih _ _ hdm' hal.2
      exact ⟨hal.trans hf, hr⟩

theorem helperTryS_frame (csp : CSP V A) (sel : VarSelection V A)
    (ord : ValOrdering V A) (σ : Nat → Nat) (N : Nat) (fuel : Nat) (var : V)
    (assignment : V → Option A) (dm : V → Nat) (hdm : ∀ v, N ≤ dm v)
    (ihBH : ∀ asg dm2 st t, (∀ v, N ≤ dm2 v) → N ≤ st.length →
      FrameLe N st (backtracking_helperS csp sel ord σ fuel asg dm2 st t).2.1) :
    ∀ (vals : List A) (st : Store A) (t : Nat), N ≤ st.length →
      FrameLe N st
        (helperTryS csp sel ord σ fuel var assignment dm vals st t).2.1 := by
  intro vals
  induction vals with
  | nil =>
      intro st t hlen
      rw [helperTryS]
      exact frameLe_rfl hlen
  | cons val rest ihv =>
      intro st t hlen
      rw [helperTryS]
      simp only []
      have hal : FrameLe N st (allocS st [val]).1 := frameLe_allocS hlen [val]
      have hdm' : ∀ v, N ≤ Function.update dm var (allocS st [val]).2 v := by
        intro v
        by_cases hv : v = var
        · rw [hv, Function.update_same]; exact hlen
        · rw [Function.update_noteq hv]; exact hdm v
      split
      · obtain ⟨hdc, hdcr⟩ := deepcopyS_spec N csp.variables
          (Function.update dm var (allocS st [val]).2) (allocS st [val]).1
          hdm' hal.2
        have hac := frameLe_ac3LoopS csp σ
          (Function.update assignment var (some val))
          (deepcopyS csp.variables
            (Function.update dm var (allocS st [val]).2)
            (allocS st [val]).1).1 N hdcr t
          (dedupArcs
            (((csp.adjacency var).filter fun n =>
              ((Function.update assignment var (some val)) n).isNone).map
              fun n => (n, var)))
          (deepcopyS csp.variables
            (Function.update dm var (allocS st [val]).2)
            (allocS st [val]).1).2 hdc.2
        have hchain := (hal.trans hdc).trans hac
        split
        · split
          · next res st2 t' heq =>
              have hbh := ihBH (Function.update assignment var (some val))
                (deepcopyS csp.variables
              (Function.update dm var (allocS st [val]).2)
              (allocS st [val]).1).1
                (ac3LoopS csp σ (Function.update assignment var (some val))
              (deepcopyS csp.variables
              (Function.update dm var (allocS st [val]).2)
              (allocS st [val]).1).1 t
              (dedupArcs
                (((csp.adjacency var).filter fun n =>
                  ((Function.update assignment var (some val)) n).isNone).map
                  fun n => (n, var)))
              (deepcopyS csp.variables
              (Function.update dm var (allocS st [val]).2)
              (allocS st [val]).1).2).2.1
                (ac3LoopS csp σ (Function.update assignment var (some val))
              (deepcopyS csp.variables
              (Function.update dm var (allocS st [val]).2)
              (allocS st [val]).1).1 t
              (dedupArcs
                (((csp.adjacency var).filter fun n =>
                  ((Function.update assignment var (some val)) n).isNone).map
                  fun n => (n, var)))
              (deepcopyS csp.variables
              (Function.update dm var (allocS st [val]).2)
              (allocS st [val]).1).2).2.2
                hdcr hac.2
              rw [heq] at hbh
              exact hchain.trans hbh
          · next st2 t' heq =>
              have hbh := ihBH (Function.update assignment var (some val))
                (deepcopyS csp.variables
              (Function.update dm var (allocS st [val]).2)
              (allocS st [val]).1).1
                (ac3LoopS csp σ (Function.update assignment var (some val))
              (deepcopyS csp.variables
              (Function.update dm var (allocS st [val]).2)
              (allocS st [val]).1).1 t
              (dedupArcs
                (((csp.adjacency var).filter fun n =>
                  ((Function.update assignment var (some val)) n).isNone).map
                  fun n => (n, var)))
              (deepcopyS csp.variables
              (Function.update dm var (allocS st [val]).2)
              (allocS st [val]).1).2).2.1
                (ac3LoopS csp σ (Function.update assignment var (some val))
              (deepcopyS csp.variables
              (Function.update dm var (allocS st [val]).2)
              (allocS st [val]).1).1 t
              (dedupArcs
                (((csp.adjacency var).filter fun n =>
                  ((Function.update assignment var (some val)) n).isNone).map
                  fun n => (n, var)))
              (deepcopyS csp.variables
              (Function.update dm var (allocS st [val]).2)
              (allocS st [val]).1).2).2.2
                hdcr hac.2
              rw [heq] at hbh
              exact (hchain.trans hbh).trans (ihv _ _ hbh.2)
        · exact hchain.trans (ihv _ _ hchain.2)
      · exact hal.trans (ihv _ _ hal.2)

theorem backtracking_helperS_frame (csp : CSP V A) (sel : VarSelection V A)
    (ord : ValOrdering V A) (σ : Nat → Nat) (N : Nat) :
    ∀ (fuel : Nat) (asg : V → Option A) (dm : V → Nat) (st : Store A)
      (t : Nat), (∀ v, N ≤ dm v) → N ≤ st.length →
      FrameLe N st (backtracking_helperS csp sel ord σ fuel asg dm st t).2.1 := by
  intro fuel
  induction fuel with
  | zero =>
      intro asg dm st t _ hlen
      rw [backtracking_helperS]
      exact frameLe_rfl hlen
  | succ fuel ih =>
      intro asg dm st t hdm hlen
      rw [backtracking_helperS]
      split
      · exact frameLe_rfl hlen
      · split
        · exact frameLe_rfl hlen
        · exact helperTryS_frame csp sel ord σ N fuel _ asg dm hdm
            (fun asg2 dm2 st2 t2 => ih asg2 dm2 st2 t2) _ _ _ hlen

theorem initCopyS_spec (N : Nat) (cspRefs : V → Nat) :
    ∀ (vars : List V) (acc : (V → Nat) × Store A),
      (∀ v, N ≤ acc.1 v) → N ≤ acc.2.length →
      FrameLe N acc.2
        (vars.foldl
          (fun acc var =>
            let al := allocS acc.2 (readS acc.2 (cspRefs var))
            (Function.update acc.1 var al.2, al.1)) acc).2 ∧
      ∀ v, N ≤ (vars.foldl
          (fun acc var =>
            let al := allocS acc.2 (readS acc.2 (cspRefs var))
            (Function.update acc.1 var al.2, al.1)) acc).1 v := by
  intro vars
  induction vars with
  | nil =>
      intro acc h1 h2
      exact ⟨frameLe_rfl h2, h1⟩
  | cons var rest ih =>
      intro acc h1 h2
      rw [List.foldl_cons]
      have hal : FrameLe N acc.2
          (allocS acc.2 (readS acc.2 (cspRefs var))).1 :=
        frameLe_allocS h2 _
      have h1' : ∀ v, N ≤ (Function.update acc.1 var
          (allocS acc.2 (readS acc.2 (cspRefs var))).2) v := by
        intro v
        by_cases hv : v = var
        · rw [hv, Function.update_same]
          exact h2
        · rw [Function.update_noteq hv]
          exact h1 v
      have hstep := ih (Function.update acc.1 var
          (allocS acc.2 (readS acc.2 (cspRefs var))).2,
        (allocS acc.2 (readS acc.2 (cspRefs var))).1) h1' hal.2
      exact ⟨hal.trans hstep.1, hstep.2⟩

end StoreModel

section Instances

/-- The two variables A (0) and B (1) of the infeasibility scenario of spec
section 8. -/
def twoVars : List (Fin 2) := [0, 1]

/-- Pairwise consistency of every assigned pair, in the style of
`check_partial_assignment` of the scheduler collaborators. -/
def diffPairsOK (asg : Fin 2 → Option Nat) : Bool :=
  twoVars.all fun v => twoVars.all fun w =>
    v = w ||
      match asg v, asg w with
      | some x, some y => decide (x ≠ y)
      | _, _ => true

/-- The instance of spec section 8: variables A, B, both with domain `{1}`,
constraint A ≠ B. -/
def cspAB : CSP (Fin 2) Nat where
  «variables» := twoVars
  domains := fun _ => [1]
  adjacency := fun v => [if v = 0 then 1 else 0]
  constraint_consistent := fun _ u _ w => decide (u ≠ w)
  check_partial_assignment := diffPairsOK
  is_goal := fun asg => (twoVars.all fun v => (asg v).isSome) && diffPairsOK asg

/-- A two-variable satisfiable instance: domains `{0, 1}` for both
variables, constraint "values differ". -/
def cOK : Fin 2 → Nat → Fin 2 → Nat → Bool := fun _ u _ w => decide (u ≠ w)

def cspOK : CSP (Fin 2) Nat where
  «variables» := [0, 1]
  domains := fun _ => [0, 1]
  adjacency := fun v => [if v = 0 then 1 else 0]
  constraint_consistent := cOK
  check_partial_assignment := pairwiseOK [0, 1] cOK
  is_goal := fun asg => completeOK [0, 1] asg && pairwiseOK [0, 1] cOK asg

/-- The full solution A = 0, B = 1 of `cspOK`. -/
def solOK : Fin 2 → Nat := fun v => if v = 0 then 0 else 1

/-- A three-variable instance on which the result of `ac3` depends on the
order in which arcs are popped from the worklist set.  Variables A = 0
(assigned), B = 1, C = 2; binary constraints: A–B compatible only as
`(0, 1)`, B–C compatible only as `(0, 0)`. -/
def cOrder : Fin 3 → Nat → Fin 3 → Nat → Bool := fun x u y v =>
  if x = 0 && y = 1 then decide (u = 0 ∧ v = 1)
  else if x = 1 && y = 0 then decide (u = 1 ∧ v = 0)
  else if x = 1 && y = 2 then decide (u = 0 ∧ v = 0)
  else if x = 2 && y = 1 then decide (u = 0 ∧ v = 0)
  else true

def cspOrder : CSP (Fin 3) Nat where
  «variables» := [0, 1, 2]
  domains := fun v => if v = 0 then [0] else if v = 1 then [0, 1] else [0]
  adjacency := fun v => if v = 0 then [1] else if v = 1 then [0, 2] else [1]
  constraint_consistent := cOrder
  check_partial_assignment := pairwiseOK [0, 1, 2] cOrder
  is_goal := fun asg =>
    completeOK [0, 1, 2] asg && pairwiseOK [0, 1, 2] cOrder asg

/-- The fixed assignment `{A: 0}` used in the order-dependence runs. -/
def asgOrder : Fin 3 → Option Nat := fun v => if v = 0 then some 0 else none

/-- The worklist `{(A, B), (B, C)}` passed to `ac3`. -/
def qOrder : List (Fin 3 × Fin 3) := [(0, 1), (1, 2)]

/-- Pop order that takes `(A, B)` first, `(B, C)` second (one possible hash
order of the set). -/
def popInOrder : Nat → Nat := fun _ => 0

/-- Pop order that takes `(B, C)` first, `(A, B)` second (another possible
hash order of the same set). -/
def popSwapped : Nat → Nat := fun t => if t = 0 then 1 else 0

/-- Instance for the re-enqueueing claim.  Search context: A = 0 and C = 2
are assigned, B = 1 is not.  Constraints: A-B compatible only as `(0, 0)`,
B-C compatible only as `(1, 0)`. -/
def cC3 : Fin 3 → Nat → Fin 3 → Nat → Bool := fun x u y v =>
  if x = 0 && y = 1 then decide (u = 0 ∧ v = 0)
  else if x = 1 && y = 0 then decide (u = 0 ∧ v = 0)
  else if x = 1 && y = 2 then decide (u = 1 ∧ v = 0)
  else if x = 2 && y = 1 then decide (u = 0 ∧ v = 1)
  else true

def cspC3 : CSP (Fin 3) Nat where
  «variables» := [0, 1, 2]
  domains := fun v => if v = 1 then [0, 1] else [0]
  adjacency := fun v => if v = 0 then [1] else if v = 1 then [0, 2] else [1]
  constraint_consistent := cC3
  check_partial_assignment := pairwiseOK [0, 1, 2] cC3
  is_goal := fun asg => completeOK [0, 1, 2] asg && pairwiseOK [0, 1, 2] cC3 asg

/-- The ambient search assignment for `cspC3`: A and C assigned 0, B free. -/
def asgC3 : Fin 3 → Option Nat := fun v => if v = 1 then none else some 0

/-- The two-variable satisfiable instance with values in `Fin 2`, for
running the full solver: domains `{0, 1}`, constraint "values differ". -/
def cOKF : Fin 2 → Fin 2 → Fin 2 → Fin 2 → Bool := fun _ u _ w => decide (u ≠ w)

def cspOKF : CSP (Fin 2) (Fin 2) where
  «variables» := [0, 1]
  domains := fun _ => [0, 1]
  adjacency := fun v => [if v = 0 then 1 else 0]
  constraint_consistent := cOKF
  check_partial_assignment := pairwiseOK [0, 1] cOKF
  is_goal := fun asg => completeOK [0, 1] asg && pairwiseOK [0, 1] cOKF asg

/-- The assignment A = 0, B = 1 that the solver finds on `cspOKF`. -/
def aOKF : Fin 2 → Option (Fin 2) :=
  Function.update (Function.update (fun _ => none) 0 (some 0)) 1 (some 1)

/-- The idempotence counterexample instance.  A = 0 is assigned; A-B
requires equal values, B-C requires B's value to be 1; C's domain is the
single slot 0. -/
def cIdem : Fin 3 → Nat → Fin 3 → Nat → Bool := fun x u y v =>
  if x = 0 && y = 1 then decide (u = v)
  else if x = 1 && y = 0 then decide (u = v)
  else if x = 1 && y = 2 then decide (u = 1)
  else if x = 2 && y = 1 then decide (v = 1)
  else true

def cspIdem : CSP (Fin 3) Nat where
  «variables» := [0, 1, 2]
  domains := fun v => if v = 2 then [0] else [0, 1]
  adjacency := fun v => if v = 0 then [1] else if v = 1 then [0, 2] else [1]
  constraint_consistent := cIdem
  check_partial_assignment := pairwiseOK [0, 1, 2] cIdem
  is_goal := fun asg =>
    completeOK [0, 1, 2] asg && pairwiseOK [0, 1, 2] cIdem asg

/-- The fixed assignment `{A: 0}` of the idempotence counterexample. -/
def asgIdem : Fin 3 → Option Nat := fun v => if v = 0 then some 0 else none

/-- Pop order taking the queue positions 0, 0, 1, 0, ...: on the
default-seeded worklist of `cspIdem` it processes `(B, C)` last. -/
def popThirdSwapped : Nat → Nat := fun t => if t = 2 then 1 else 0

/-- Tie-break counterexample instance: three unassigned variables with
equal domain sizes; variable 0 has no neighbors, variables 1 and 2 are
mutual neighbors. -/
def cspMRV : CSP (Fin 3) Nat where
  «variables» := [0, 1, 2]
  domains := fun _ => [0]
  adjacency := fun v => if v = 0 then [] else if v = 1 then [2] else [1]
  constraint_consistent := fun _ _ _ _ => true
  check_partial_assignment := pairwiseOK [0, 1, 2] fun _ _ _ _ => true
  is_goal := fun asg => completeOK [0, 1, 2] asg

/-- The everywhere-empty assignment on three variables. -/
def emptyAsg3 : Fin 3 → Option Nat := fun _ => none

end Instances

section Claims

/-- C9: on the instance with variables A, B, domains `{1}` and constraint
A ≠ B, the initial `ac3` pass run by `backtracking` reports inconsistency
(one domain empties) under every pop order of the arc set, and
`backtracking` returns the no-solution sentinel `none` without invoking the
recursive helper (its result is taken in the `is_consistent == False`
branch, which returns immediately). -/
theorem C9_infeasible_detected_by_initial_propagation (σ : Nat → Nat) :
    (ac3 cspAB σ 0 none none (some cspAB.domains)).1 = false ∧
      backtracking cspAB var_selection_function val_order_function σ = none := by
  have h : σ 0 % 2 = 0 ∨ σ 0 % 2 = 1 := by omega
  have hfalse : (ac3 cspAB σ 0 none none (some cspAB.domains)).1 = false := by
    rcases h with h | h <;>
      simp [ac3, ac3Loop, h, fullSeed, dedupArcs, addArc, revise, reviseGo,
        cspAB, twoVars, Function.update]
  refine ⟨hfalse, ?_⟩
  simp only [backtracking]
  rw [if_neg (by simp [hfalse])]

/-- C1: soundness of the solver.  A non-`None` result of `backtracking` can
only arise from the `csp.is_goal(assignment)` base case of
`backtracking_helper`, so it satisfies `is_goal`; under the collaborator
contract of spec section 6 — `is_goal` means complete and pairwise
`constraint_consistent` — the returned assignment therefore maps every
variable to exactly one value and satisfies the binary constraint on every
pair of distinct assigned variables. -/
theorem C1_backtracking_soundness {V A : Type} [DecidableEq V]
    [DecidableEq A] [Fintype V] (csp : CSP V A) (sel : VarSelection V A)
    (ord : ValOrdering V A) (σ : Nat → Nat) (a : V → Option A)
    (hcontract : ∀ b, csp.is_goal b = true →
      (∀ v ∈ csp.variables, ∃ x, b v = some x) ∧
      (∀ v w x y, v ≠ w → b v = some x → b w = some y →
        csp.constraint_consistent v x w y = true))
    (hrun : backtracking csp sel ord σ = some a) :
    csp.is_goal a = true ∧
      (∀ v ∈ csp.variables, ∃ x, a v = some x) ∧
      (∀ v w x y, v ≠ w → a v = some x → a w = some y →
        csp.constraint_consistent v x w y = true) := by
  have hgoal : csp.is_goal a = true := by
    unfold backtracking at hrun
    simp only [] at hrun
    split at hrun
    · exact backtracking_helper_sound csp sel ord σ _ _ _ _ a _
        (Prod.ext hrun rfl)
    · exact absurd hrun (by simp)
  exact ⟨hgoal, (hcontract a hgoal).1, (hcontract a hgoal).2⟩

/-- Witness for C1: on the two-variable "values differ" instance the solver
returns the assignment A = 0, B = 1, which is a goal, total, and pairwise
consistent. -/
theorem C1_backtracking_soundness_witness :
    cspOKF.is_goal aOKF = true ∧
      (∀ v ∈ cspOKF.variables, ∃ x, aOKF v = some x) ∧
      (∀ v w x y, v ≠ w → aOKF v = some x → aOKF w = some y →
        cspOKF.constraint_consistent v x w y = true) :=
  C1_backtracking_soundness cspOKF var_selection_function val_order_function
    popInOrder aOKF (by decide)
    (by
      simp [backtracking, ac3, ac3Loop, dedupArcs, addArc, fullSeed, revise,
        reviseGo, backtracking_helper, helperTry, var_selection_function,
        val_order_function, cspOKF, cOKF, pairwiseOK, completeOK, popInOrder,
        aOKF, Function.update])

/-- C7 (counterexample): `ac3` is not idempotent for every assignment.  On
`cspIdem` — A assigned, domains A: `[0,1]`, B: `[0,1]`, C: `[0]`, A-B
"equal values", B-C "B must be 1" — a first default-seeded run that
processes `(B, C)` last returns consistent with domains A: `[0,1]`,
B: `[1]`, C: `[0]`: value 0 of the *assigned* variable A has lost its
support in B, but the arc `(A, B)` is not re-enqueued because A is
assigned.  Running `ac3` again on the returned domains with the same
assignment and the default full seeding removes that value: the second run
also reports consistent, but returns A: `[1]` ≠ A: `[0,1]`. -/
theorem C7_second_run_shrinks_domains :
    (ac3 cspIdem popThirdSwapped 0 none (some asgIdem)
        (some cspIdem.domains)).1 = true ∧
      (ac3 cspIdem popThirdSwapped 0 none (some asgIdem)
        (some cspIdem.domains)).2.1 0 = [0, 1] ∧
      (ac3 cspIdem popInOrder 0 none (some asgIdem)
        (some (ac3 cspIdem popThirdSwapped 0 none (some asgIdem)
          (some cspIdem.domains)).2.1)).1 = true ∧
      (ac3 cspIdem popInOrder 0 none (some asgIdem)
        (some (ac3 cspIdem popThirdSwapped 0 none (some asgIdem)
          (some cspIdem.domains)).2.1)).2.1 0 = [1] := by
  refine ⟨?_, ?_, ?_, ?_⟩ <;>
    simp [ac3, ac3Loop, dedupArcs, addArc, fullSeed, revise, reviseGo,
      cspIdem, cIdem, asgIdem, popThirdSwapped, popInOrder, Function.update]

/-- C7 (amended): idempotence holds for the initial global pass.  For a
well-formed CSP — symmetric constraint function, symmetric irreflexive
adjacency listing over the declared variables, duplicate-free domains — and
the *empty* assignment, if a default-seeded `ac3` run reports consistency,
then a second default-seeded run on the returned domains (any strategies,
any step counters) reports consistency and returns exactly the same
domains. -/
theorem C7_initial_pass_idempotent {V A : Type} [DecidableEq V]
    [DecidableEq A] [Fintype V] (csp : CSP V A) (σ₁ σ₂ : Nat → Nat)
    (t₁ t₂ : Nat) (doms0 : V → List A)
    (hsym : ∀ x u y v,
      csp.constraint_consistent x u y v = csp.constraint_consistent y v x u)
    (hadj : ∀ x y, y ∈ csp.adjacency x → x ∈ csp.adjacency y)
    (hirr : ∀ x, x ∉ csp.adjacency x)
    (hvars : ∀ x y, y ∈ csp.adjacency x → x ∈ csp.variables)
    (hnd : ∀ v, (doms0 v).Nodup)
    (hrun : (ac3 csp σ₁ t₁ none none (some doms0)).1 = true) :
    (ac3 csp σ₂ t₂ none none
        (some (ac3 csp σ₁ t₁ none none (some doms0)).2.1)).1 = true ∧
      (ac3 csp σ₂ t₂ none none
        (some (ac3 csp σ₁ t₁ none none (some doms0)).2.1)).2.1 =
        (ac3 csp σ₁ t₁ none none (some doms0)).2.1 := by
  unfold ac3 at hrun ⊢
  simp only [Option.getD_none, Option.getD_some] at hrun ⊢
  have hwf : ∀ p ∈ dedupArcs (fullSeed csp), p.2 ∈ csp.adjacency p.1 := by
    intro p hp
    rcases mem_fullSeed csp p ((mem_dedupArcs _ _).mp hp) with h | h
    · exact h
    · exact hadj _ _ h
  have hinv : ∀ x y, y ∈ csp.adjacency x →
      (x, y) ∈ dedupArcs (fullSeed csp) ∨
        supportedAll csp.constraint_consistent doms0 x y := by
    intro x y hxy
    exact Or.inl ((mem_dedupArcs _ _).mpr
      (fullSeed_complete csp x y (hvars x y hxy) hxy).1)
  have hpost := ac3Loop_arc_consistent csp σ₁ (fun _ => none) (fun _ => rfl)
    hsym hadj hirr t₁ (dedupArcs (fullSeed csp)) doms0 hwf hnd hinv hrun
  exact ac3Loop_stable csp σ₂ (fun _ => none) t₂ (dedupArcs (fullSeed csp)) _
    hwf hpost

/-- Witness for the amended C7 on the two-variable "values differ" instance
with empty assignment: the first default pass reports consistency, and the
second pass returns its domains unchanged. -/
theorem C7_initial_pass_idempotent_witness :
    (ac3 cspOKF popSwapped 1 none none
        (some (ac3 cspOKF popInOrder 0 none none
          (some cspOKF.domains)).2.1)).1 = true ∧
      (ac3 cspOKF popSwapped 1 none none
        (some (ac3 cspOKF popInOrder 0 none none
          (some cspOKF.domains)).2.1)).2.1 =
        (ac3 cspOKF popInOrder 0 none none (some cspOKF.domains)).2.1 :=
  C7_initial_pass_idempotent cspOKF popInOrder popSwapped 0 1 cspOKF.domains
    (by decide) (by decide) (by decide) (by decide) (by decide)
    (by
      simp [ac3, ac3Loop, dedupArcs, addArc, fullSeed, revise, reviseGo,
        cspOKF, cOKF, popInOrder, Function.update])

/-- C8: every run of either `ac3` variant, from any strategy, any step
counter, any worklist, any assignment and any domain mapping, returns for
every variable an order-preserving subsequence (`List.Sublist`) of that
variable's input domain, so no value is ever added or reordered and every
domain's size is non-increasing. -/
theorem C8_ac3_monotonic_shrink {V A : Type} [DecidableEq V] [DecidableEq A]
    [Fintype V] :
    (∀ (csp : CSP V A) (σ : Nat → Nat) (asg : V → Option A) (t : Nat)
        (q : List (V × V)) (doms : V → List A) (v : V),
      List.Sublist ((ac3Loop csp σ asg t q doms).2.1 v) (doms v) ∧
        ((ac3Loop csp σ asg t q doms).2.1 v).length ≤ (doms v).length) ∧
    (∀ (csp : CSP V A) (q : List (V × V)) (doms : V → List A) (v : V),
      List.Sublist ((ac3SchedLoop csp q doms).2 v) (doms v) ∧
        ((ac3SchedLoop csp q doms).2 v).length ≤ (doms v).length) :=
  ⟨fun csp σ asg t q doms v =>
    ⟨ac3Loop_sublist csp σ asg t q doms v,
      (ac3Loop_sublist csp σ asg t q doms v).length_le⟩,
  fun csp q doms v =>
    ⟨ac3SchedLoop_sublist csp q doms v,
      (ac3SchedLoop_sublist csp q doms v).length_le⟩⟩

/-- C6: if a full assignment `sol` satisfies the binary constraint between
every pair of distinct variables and each `sol v` is present in `v`'s
current domain, then `ac3` (run with any strategy, any initial worklist of
well-formed arcs, and any fixed assignment) never removes `sol v`: it is
still present in the returned domain of every variable.  Well-formedness
asks only that the adjacency is irreflexive and that explicitly supplied
arcs relate distinct variables, which holds for every worklist the solver
builds. -/
theorem C6_propagation_soundness {V A : Type} [DecidableEq V] [DecidableEq A]
    [Fintype V] (csp : CSP V A) (σ : Nat → Nat) (t : Nat)
    (arcsQueue : Option (List (V × V))) (assignment : Option (V → Option A))
    (doms : V → List A) (sol : V → A)
    (hsol : ∀ xi xj, xi ≠ xj →
      csp.constraint_consistent xi (sol xi) xj (sol xj) = true)
    (hmem : ∀ v, sol v ∈ doms v)
    (hirr : ∀ x, x ∉ csp.adjacency x)
    (harcs : ∀ q0, arcsQueue = some q0 → ∀ p ∈ q0, p.1 ≠ p.2) :
    ∀ v, sol v ∈ (ac3 csp σ t arcsQueue assignment (some doms)).2.1 v := by
  intro v
  unfold ac3
  refine ac3Loop_solution_survives csp σ _ sol hsol hirr t _ _ ?_ hmem v
  intro p hp
  rw [mem_dedupArcs] at hp
  cases harc : arcsQueue with
  | none =>
      rw [harc] at hp
      simp only [Option.getD_none] at hp
      rcases mem_fullSeed csp p hp with h | h
      · intro he; rw [he] at h; exact hirr _ h
      · intro he; rw [he] at h; exact hirr _ h
  | some q0 =>
      rw [harc] at hp
      exact harcs q0 harc p hp

/-- Witness for C6 at the concrete satisfiable instance `cspOK` with
solution A = 0, B = 1: both solution values survive the full default
propagation pass. -/
theorem C6_propagation_soundness_witness :
    solOK 0 ∈ (ac3 cspOK popInOrder 0 none none (some cspOK.domains)).2.1 0 ∧
      solOK 1 ∈ (ac3 cspOK popInOrder 0 none none (some cspOK.domains)).2.1 1 :=
  ⟨C6_propagation_soundness cspOK popInOrder 0 none none cspOK.domains solOK
      (by decide) (by decide) (by decide) (fun q0 h => nomatch h) 0,
    C6_propagation_soundness cspOK popInOrder 0 none none cspOK.domains solOK
      (by decide) (by decide) (by decide) (fun q0 h => nomatch h) 1⟩

/-- C2 (divergence of the code from the determinism claim): the worklist of
`ac3` in `HW2/Code/backtracking.py` is a Python `set` popped in hash order,
not a FIFO queue.  Modelling the pop order as a strategy, two orders that
are both realizable as hash orders of the set `{(A, B), (B, C)}` give
different results on the same input: popping `(A, B)` first reports
consistency, popping `(B, C)` first empties A's domain and reports
inconsistency.  The result of `ac3` is therefore not a function of its
mathematical input, contradicting "the order in which ac3 removes arcs from
its worklist is a deterministic function of the input". -/
theorem C2_ac3_set_pop_order_changes_result :
    (ac3 cspOrder popInOrder 0 (some qOrder) (some asgOrder)
        (some cspOrder.domains)).1 = true ∧
      (ac3 cspOrder popSwapped 0 (some qOrder) (some asgOrder)
        (some cspOrder.domains)).1 = false := by
  constructor
  · simp [ac3, ac3Loop, dedupArcs, addArc, revise, reviseGo, cspOrder, cOrder,
      qOrder, asgOrder, popInOrder, Function.update]
  · simp [ac3, ac3Loop, dedupArcs, addArc, revise, reviseGo, cspOrder, cOrder,
      qOrder, asgOrder, popSwapped, Function.update]

/-- C4 (counterexample): the `mrv` actually installed as
`var_selection_function` in `HW2/Code/p2_csp_tests/backtracking.py` breaks
ties by list position, not by degree.  On `cspMRV`, with everything
unassigned and all domains of size 1, it returns variable 0, although
variable 1 has the same domain size and strictly more unassigned neighbors
— contradicting "among those of minimum domain size it returns one with the
greatest number of unassigned neighbors". -/
theorem C4_mrv_ignores_degree_tie_break :
    mrv cspMRV emptyAsg3 cspMRV.domains = some 0 ∧
      (1 : Fin 3) ∈ cspMRV.variables ∧ (emptyAsg3 1).isNone = true ∧
      (cspMRV.domains 0).length = (cspMRV.domains 1).length ∧
      unassignedDegree cspMRV emptyAsg3 0 < unassignedDegree cspMRV emptyAsg3 1 := by
  refine ⟨?_, by decide, by decide, by decide, by decide⟩
  decide

/-- C4 (amended): `select_unassigned_variable` of
`Homework 2/p2_csp_tests/backtracking.py` does implement MRV with the
degree tie-break: whenever it returns a variable, that variable is an
unassigned member of `csp.variables` and, against every unassigned
variable, it either has a strictly smaller current domain or an equal
domain size and at least as many unassigned neighbors. -/
theorem C4_select_unassigned_variable_mrv_with_degree {V A : Type}
    [DecidableEq V] [DecidableEq A] (csp : CSP V A)
    (assignment : V → Option A) (currentDomains : V → List A) (v : V)
    (h : select_unassigned_variable csp assignment currentDomains = some v) :
    v ∈ csp.variables ∧ (assignment v).isNone = true ∧
      ∀ w ∈ csp.variables, (assignment w).isNone = true →
        (currentDomains v).length < (currentDomains w).length ∨
          ((currentDomains v).length = (currentDomains w).length ∧
            unassignedDegree csp assignment w ≤
              unassignedDegree csp assignment v) := by
  obtain ⟨hmem, hmin⟩ := pythonMinTuple_spec _ _ _ h
  rw [List.mem_filter] at hmem
  refine ⟨hmem.1, hmem.2, ?_⟩
  intro w hw hwn
  have h2 := hmin w (List.mem_filter.mpr ⟨hw, hwn⟩)
  rw [tupleLt_false_iff] at h2
  dsimp only at h2
  omega

/-- Witness for the amended C4 on `cspMRV`: the Homework 2 selection
function picks variable 1 (degree 1 beats degree 0 at equal domain size),
and the theorem's guarantees hold for it. -/
theorem C4_select_unassigned_variable_witness :
    select_unassigned_variable cspMRV emptyAsg3 cspMRV.domains = some 1 ∧
      ((1 : Fin 3) ∈ cspMRV.variables ∧ (emptyAsg3 1).isNone = true ∧
        ∀ w ∈ cspMRV.variables, (emptyAsg3 w).isNone = true →
          (cspMRV.domains 1).length < (cspMRV.domains w).length ∨
            ((cspMRV.domains 1).length = (cspMRV.domains w).length ∧
              unassignedDegree cspMRV emptyAsg3 w ≤
                unassignedDegree cspMRV emptyAsg3 1)) :=
  ⟨by decide,
    C4_select_unassigned_variable_mrv_with_degree cspMRV emptyAsg3
      cspMRV.domains 1 (by decide)⟩

/-- C5: `lcv` returns exactly the values of the selected variable's current
domain — a permutation, nothing added or deleted — sorted in ascending
order of `countConflicts`, the number of (value, neighbor-value) pairs
failing `constraint_consistent` over every unassigned neighbor and every
value of that neighbor's current domain. -/
theorem C5_lcv_sorts_domain_by_conflicts {V A : Type} [DecidableEq V]
    [DecidableEq A] (csp : CSP V A) (var : V) (assignment : V → Option A)
    (currentDomains : V → List A) :
    (lcv csp var assignment currentDomains).Perm (currentDomains var) ∧
      (lcv csp var assignment currentDomains).Sorted fun a b =>
        countConflicts csp var assignment currentDomains a ≤
          countConflicts csp var assignment currentDomains b := by
  constructor
  · exact List.perm_insertionSort _ _
  · haveI : IsTotal A fun a b =>
        countConflicts csp var assignment currentDomains a ≤
          countConflicts csp var assignment currentDomains b :=
      ⟨fun a b => Nat.le_total _ _⟩
    haveI : IsTrans A fun a b =>
        countConflicts csp var assignment currentDomains a ≤
          countConflicts csp var assignment currentDomains b :=
      ⟨fun a b c => Nat.le_trans⟩
    exact List.sorted_insertionSort _ _

/-- C3 (counterexample): the `ac3` of
`Homework 2/p2_csp_tests/csp_scheduler.py` re-enqueues every neighbor arc
`(xk, xi)` with `xk ≠ xj`, with no assignment filter.  In the search state
where A and C are assigned (`asgC3`) the helper seeds the queue with the
single arc `(B, C)`, whose source is unassigned; revising B then re-enqueues
`(A, B)` although A is assigned, and processing that arc empties A's
singleton domain — so an arc toward an already-assigned variable *is*
re-enqueued during search, contradicting the claim for this cited `ac3`. -/
theorem C3_sched_ac3_requeues_assigned_arcs :
    (∀ p ∈ [((1 : Fin 3), (2 : Fin 3))], asgC3 p.1 = none) ∧
      asgC3 0 = some 0 ∧
      cspC3.domains 0 = [0] ∧
      (ac3Sched cspC3 (some [(1, 2)]) (some cspC3.domains)).2 0 = [] := by
  refine ⟨by decide, by decide, by decide, ?_⟩
  simp [ac3Sched, ac3SchedLoop, reviseSched, cspC3, cC3, Function.update]

/-- C3 (amended): the `ac3` of `HW2/Code/backtracking.py` re-enqueues
exactly the arcs `(xk, xi)` with `xk` a neighbor of `xi`, `xk ≠ xj` and
`xk` not in the assignment (second conjunct: the membership law of the
re-enqueue fold it executes); consequently, whenever every arc of the
initial worklist has an unassigned source — as in every worklist the
search helper seeds — the domain of every assigned variable is returned
untouched (first conjunct). -/
theorem C3_ac3_never_requeues_assigned_arcs {V A : Type} [DecidableEq V]
    [DecidableEq A] [Fintype V] (csp : CSP V A) (σ : Nat → Nat)
    (asg : V → Option A) :
    (∀ (t : Nat) (q : List (V × V)) (doms : V → List A),
      (∀ p ∈ q, asg p.1 = none) → ∀ v, asg v ≠ none →
        (ac3Loop csp σ asg t q doms).2.1 v = doms v) ∧
    (∀ (xi xj : V) (q' : List (V × V)) (p : V × V),
      p ∈ ((csp.adjacency xi).filter fun n =>
            n ≠ xj && (asg n).isNone).foldl
          (fun acc xk => addArc acc (xk, xi)) q' ↔
        p ∈ q' ∨
          (p.2 = xi ∧ p.1 ∈ csp.adjacency xi ∧ p.1 ≠ xj ∧ asg p.1 = none)) := by
  constructor
  · intro t q doms
    induction t, q, doms using ac3Loop.induct csp σ asg with
    | case1 t doms =>
        intro _ _ _
        rw [ac3Loop]
    | case2 t p rest doms q i arc r hrev hempty =>
        intro hq v hv
        rw [ac3Loop]
        simp only [q, i, arc, r] at hrev hempty ⊢
        simp only [hrev, hempty, if_pos]
        refine revise_apply_ne _ _ _ _ v ?_
        intro he
        exact hv (he ▸ hq _ (getD_head_mem p rest _))
    | case3 t p rest doms q i arc q' r hrev hempty ih =>
        intro hq v hv
        rw [ac3Loop]
        simp only [q, i, arc, q', r] at hrev hempty ih ⊢
        simp only [hrev, hempty, if_pos, if_neg]
        have hstep : ∀ v, asg v ≠ none →
            (revise csp.constraint_consistent
              ((p :: rest).getD (σ t % (p :: rest).length) p).1
              ((p :: rest).getD (σ t % (p :: rest).length) p).2 doms).1 v =
              doms v := by
          intro v2 hv2
          refine revise_apply_ne _ _ _ _ v2 ?_
          intro he
          exact hv2 (he ▸ hq _ (getD_head_mem p rest _))
        refine (ih ?_ v hv).trans (hstep v hv)
        intro p2 hp2
        rw [mem_foldl_addArc_pair] at hp2
        rcases hp2 with hp2 | ⟨xk, hk, rfl⟩
        · exact hq _ ((List.eraseIdx_sublist _ _).mem hp2)
        · have := List.of_mem_filter hk
          simp only [Bool.and_eq_true, Option.isNone_iff_eq_none] at this
          exact this.2
    | case4 t p rest doms q i arc q' r hrev ih =>
        intro hq v hv
        rw [ac3Loop]
        simp only [q, i, arc, q', r] at hrev ih ⊢
        simp only [hrev, if_neg]
        exact ih (fun p2 hp2 => hq _ ((List.eraseIdx_sublist _ _).mem hp2)) v hv
  · intro xi xj q' p
    rw [mem_foldl_addArc_pair]
    constructor
    · rintro (hp | ⟨xk, hk, rfl⟩)
      · exact Or.inl hp
      · have h2 := List.of_mem_filter hk
        simp only [Bool.and_eq_true, decide_eq_true_eq,
          Option.isNone_iff_eq_none] at h2
        exact Or.inr ⟨rfl, List.mem_of_mem_filter hk, h2.1, h2.2⟩
    · rintro (hp | ⟨h2, h3, h4, h5⟩)
      · exact Or.inl hp
      · refine Or.inr ⟨p.1, List.mem_filter.mpr ⟨h3, ?_⟩, ?_⟩
        · simp [h4, h5]
        · rw [← h2]
    
/-- Witness for the amended C3 on `cspC3`: with the search-seeded worklist
`[(B, C)]` (unassigned source), the filtered `ac3` leaves assigned A's
domain `[0]` untouched, and instantiating the enqueue law shows `(A, B)` is
not among the arcs added when revising B with respect to C. -/
theorem C3_ac3_never_requeues_assigned_arcs_witness :
    (ac3Loop cspC3 popInOrder asgC3 0 [(1, 2)] cspC3.domains).2.1 0 =
        cspC3.domains 0 ∧
      ¬(((0, 1) : Fin 3 × Fin 3) ∈ ((cspC3.adjacency 1).filter fun n =>
            n ≠ (2 : Fin 3) && (asgC3 n).isNone).foldl
          (fun acc xk => addArc acc (xk, (1 : Fin 3))) []) :=
  ⟨(C3_ac3_never_requeues_assigned_arcs cspC3 popInOrder asgC3).1 0 [(1, 2)]
      cspC3.domains (by decide) 0 (by decide),
    fun h => by
      have h2 :=
        ((C3_ac3_never_requeues_assigned_arcs cspC3 popInOrder asgC3).2
          1 2 [] (0, 1)).mp h
      revert h2
      decide⟩

end Claims


section ClaimTen

/-- C10: the solver never mutates the problem's own domain cells.  In the
store model, `csp.domains` is the reference map `cspRefs` into the initial
store; after `backtracking` returns — solution or `None` — the cell of
every variable's original candidate list is unchanged, because the solver
deep-copies each list into fresh cells before the initial propagation and
`ac3` / `revise` write only through the copies' references. -/
theorem C10_backtracking_never_mutates_csp_domains {V A : Type}
    [DecidableEq V] [DecidableEq A] (csp : CSP V A) (cspRefs : V → Nat)
    (sel : VarSelection V A) (ord : ValOrdering V A) (σ : Nat → Nat)
    (st0 : Store A) (hrefs : ∀ v, cspRefs v < st0.length) :
    ∀ v, readS (backtrackingS csp cspRefs sel ord σ st0).2 (cspRefs v) =
      readS st0 (cspRefs v) := by
  intro v
  unfold backtrackingS
  simp only [ac3S, Option.getD_none]
  have hdum : FrameLe st0.length st0 (allocS st0 []).1 :=
    frameLe_allocS (le_refl _) []
  have hinit := initCopyS_spec st0.length cspRefs csp.variables
    ((fun _ => (allocS st0 []).2), (allocS st0 []).1)
    (fun _ => le_refl _) hdum.2
  have hac := frameLe_ac3LoopS csp σ (fun _ => none)
    (csp.variables.foldl
        (fun acc var =>
          let al := allocS acc.2 (readS acc.2 (cspRefs var))
          (Function.update acc.1 var al.2, al.1))
        ((fun _ => (allocS st0 []).2), (allocS st0 []).1)).1 st0.length hinit.2 0 (dedupArcs (fullSeed csp))
    (csp.variables.foldl
        (fun acc var =>
          let al := allocS acc.2 (readS acc.2 (cspRefs var))
          (Function.update acc.1 var al.2, al.1))
        ((fun _ => (allocS st0 []).2), (allocS st0 []).1)).2 hinit.1.2
  have hbh := backtracking_helperS_frame csp sel ord σ st0.length
    (csp.variables.length + 1) (fun _ => none)
    (csp.variables.foldl
        (fun acc var =>
          let al := allocS acc.2 (readS acc.2 (cspRefs var))
          (Function.update acc.1 var al.2, al.1))
        ((fun _ => (allocS st0 []).2), (allocS st0 []).1)).1
    (ac3LoopS csp σ (fun _ => none) (csp.variables.foldl
        (fun acc var =>
          let al := allocS acc.2 (readS acc.2 (cspRefs var))
          (Function.update acc.1 var al.2, al.1))
        ((fun _ => (allocS st0 []).2), (allocS st0 []).1)).1 0
        (dedupArcs (fullSeed csp)) (csp.variables.foldl
        (fun acc var =>
          let al := allocS acc.2 (readS acc.2 (cspRefs var))
          (Function.update acc.1 var al.2, al.1))
        ((fun _ => (allocS st0 []).2), (allocS st0 []).1)).2).2.1
    (ac3LoopS csp σ (fun _ => none) (csp.variables.foldl
        (fun acc var =>
          let al := allocS acc.2 (readS acc.2 (cspRefs var))
          (Function.update acc.1 var al.2, al.1))
        ((fun _ => (allocS st0 []).2), (allocS st0 []).1)).1 0
        (dedupArcs (fullSeed csp)) (csp.variables.foldl
        (fun acc var =>
          let al := allocS acc.2 (readS acc.2 (cspRefs var))
          (Function.update acc.1 var al.2, al.1))
        ((fun _ => (allocS st0 []).2), (allocS st0 []).1)).2).2.2
    hinit.2 hac.2
  split
  · exact (((hdum.trans hinit.1).trans hac).trans hbh).1 (cspRefs v) (hrefs v)
  · exact ((hdum.trans hinit.1).trans hac).1 (cspRefs v) (hrefs v)

/-- Witness for C10 on the two-variable "values differ" instance: with the
problem's domain lists stored in cells 0 and 1, a full solver run leaves
both cells exactly as they were. -/
theorem C10_backtracking_never_mutates_csp_domains_witness :
    readS (backtrackingS cspOKF (fun v : Fin 2 => v.val) var_selection_function
        val_order_function popInOrder ([[0, 1], [0, 1]] : Store (Fin 2))).2 ((0 : Fin 2).val) =
      readS ([[0, 1], [0, 1]] : Store (Fin 2)) ((0 : Fin 2).val) ∧
    readS (backtrackingS cspOKF (fun v : Fin 2 => v.val) var_selection_function
        val_order_function popInOrder ([[0, 1], [0, 1]] : Store (Fin 2))).2 ((1 : Fin 2).val) =
      readS ([[0, 1], [0, 1]] : Store (Fin 2)) ((1 : Fin 2).val) :=
  ⟨C10_backtracking_never_mutates_csp_domains cspOKF (fun v : Fin 2 => v.val)
      var_selection_function val_order_function popInOrder
      ([[0, 1], [0, 1]] : Store (Fin 2)) (by decide) 0,
    C10_backtracking_never_mutates_csp_domains cspOKF (fun v : Fin 2 => v.val)
      var_selection_function val_order_function popInOrder
      ([[0, 1], [0, 1]] : Store (Fin 2)) (by decide) 1⟩

end ClaimTen
